import Mathlib

/-!
Verification of the tinysql storage engine (src/src/main.c) against its
specification, by a shallow embedding in Lean 4.

The development mirrors the source file in two tiers.

Byte tier: rows and node page headers are byte buffers (lists of naturals
below 256), memcpy is a list splice, and uint32 stores and loads are
little-endian four-byte operations.  serialize_row, deserialize_row and
initialize_leaf_node are translated byte for byte.

Tree tier: a page holding a B-tree node is a structured value (Node), the
pager is the list of its pages, and every engine operation (table_find,
execute_insert, leaf_node_split_and_insert, create_new_root,
execute_select, db_open, db_close) is a Lean function translated from the
corresponding C function.  Paths on which the C process exits (or does not
terminate) return none.
-/

namespace TinySql

/-! ## Layout constants, translated from the constant definitions in main.c -/

def PAGE_SIZE : Nat := 4096

def TABLE_MAX_PAGES : Nat := 100

def COLUMN_USERNAME_SIZE : Nat := 32

def COLUMN_EMAIL_SIZE : Nat := 255

/-- size_of_attribute(Row, id) = sizeof(uint32_t). -/
def ID_SIZE : Nat := 4

/-- size_of_attribute(Row, username) = sizeof(char[COLUMN_USERNAME_SIZE + 1]). -/
def USERNAME_SIZE : Nat := COLUMN_USERNAME_SIZE + 1

/-- size_of_attribute(Row, email) = sizeof(char[COLUMN_EMAIL_SIZE + 1]). -/
def EMAIL_SIZE : Nat := COLUMN_EMAIL_SIZE + 1

def ID_OFFSET : Nat := 0

def USERNAME_OFFSET : Nat := ID_OFFSET + ID_SIZE

def EMAIL_OFFSET : Nat := USERNAME_OFFSET + USERNAME_SIZE

def ROW_SIZE : Nat := ID_SIZE + USERNAME_SIZE + EMAIL_SIZE

def NODE_TYPE_SIZE : Nat := 1

def NODE_TYPE_OFFSET : Nat := 0

def IS_ROOT_SIZE : Nat := 1

def IS_ROOT_OFFSET : Nat := NODE_TYPE_SIZE

def PARENT_POINTER_SIZE : Nat := 4

def PARENT_POINTER_OFFSET : Nat := IS_ROOT_OFFSET + IS_ROOT_SIZE

def COMMON_NODE_HEADER_SIZE : Nat :=
  NODE_TYPE_SIZE + IS_ROOT_SIZE + PARENT_POINTER_SIZE

def LEAF_NODE_NUM_CELLS_SIZE : Nat := 4

def LEAF_NODE_NUM_CELLS_OFFSET : Nat := COMMON_NODE_HEADER_SIZE

def LEAF_NODE_NEXT_LEAF_SIZE : Nat := 4

def LEAF_NODE_NEXT_LEAF_OFFSET : Nat :=
  LEAF_NODE_NUM_CELLS_OFFSET + LEAF_NODE_NUM_CELLS_SIZE

def LEAF_NODE_HEADER_SIZE : Nat :=
  COMMON_NODE_HEADER_SIZE + LEAF_NODE_NUM_CELLS_SIZE + LEAF_NODE_NEXT_LEAF_SIZE

def LEAF_NODE_KEY_SIZE : Nat := 4

def LEAF_NODE_KEY_OFFSET : Nat := 0

def LEAF_NODE_VALUE_SIZE : Nat := ROW_SIZE

def LEAF_NODE_VALUE_OFFSET : Nat := LEAF_NODE_KEY_OFFSET + LEAF_NODE_KEY_SIZE

def LEAF_NODE_CELL_SIZE : Nat := LEAF_NODE_KEY_SIZE + LEAF_NODE_VALUE_SIZE

def LEAF_NODE_SPACE_FOR_CELLS : Nat := PAGE_SIZE - LEAF_NODE_HEADER_SIZE

def LEAF_NODE_MAX_CELLS : Nat := LEAF_NODE_SPACE_FOR_CELLS / LEAF_NODE_CELL_SIZE

/-- C: (LEAF_NODE_MAX_CELLS + 1) / 2, integer division. -/
def LEAF_NODE_RIGHT_SPLIT_COUNT : Nat := (LEAF_NODE_MAX_CELLS + 1) / 2

def LEAF_NODE_LEFT_SPLIT_COUNT : Nat :=
  (LEAF_NODE_MAX_CELLS + 1) - LEAF_NODE_RIGHT_SPLIT_COUNT

def INTERNAL_NODE_NUM_KEYS_SIZE : Nat := 4

def INTERNAL_NODE_NUM_KEYS_OFFSET : Nat := COMMON_NODE_HEADER_SIZE

def INTERNAL_NODE_RIGHT_CHILD_SIZE : Nat := 4

def INTERNAL_NODE_RIGHT_CHILD_OFFSET : Nat :=
  INTERNAL_NODE_NUM_KEYS_OFFSET + INTERNAL_NODE_NUM_KEYS_SIZE

def INTERNAL_NODE_HEADER_SIZE : Nat :=
  COMMON_NODE_HEADER_SIZE + INTERNAL_NODE_NUM_KEYS_SIZE +
    INTERNAL_NODE_RIGHT_CHILD_SIZE

def INTERNAL_NODE_KEY_SIZE : Nat := 4

def INTERNAL_NODE_CHILD_SIZE : Nat := 4

def INTERNAL_NODE_CELL_SIZE : Nat :=
  INTERNAL_NODE_CHILD_SIZE + INTERNAL_NODE_KEY_SIZE

/-- NodeType enum: NODE_INTERNAL = 0. -/
def NODE_INTERNAL : Nat := 0

/-- NodeType enum: NODE_LEAF = 1. -/
def NODE_LEAF : Nat := 1

/-! ## Byte tier: buffers, memcpy, uint32 stores and loads -/

/-- memcpy(dest + off, src, src.length) on a byte buffer: splice src over
the bytes [off, off + src.length) of dest. -/
def memcpyAt (dest : List Nat) (off : Nat) (src : List Nat) : List Nat :=
  dest.take off ++ src ++ dest.drop (off + src.length)

/-- The four bytes written by a little-endian uint32 store of n. -/
def toLE4 (n : Nat) : List Nat :=
  [n % 256, n / 256 % 256, n / 256 / 256 % 256, n / 256 / 256 / 256 % 256]

/-- The value of a little-endian uint32 load from four bytes. -/
def fromLE4 (bs : List Nat) : Nat :=
  bs.getD 0 0 + 256 * bs.getD 1 0 + 65536 * bs.getD 2 0 +
    16777216 * bs.getD 3 0

/-- The value of a one-byte (uint8) load. -/
def loadByte (bs : List Nat) : Nat := bs.getD 0 0

/-- Read the len bytes at offset off. -/
def segRead (l : List Nat) (off len : Nat) : List Nat := (l.drop off).take len

/-! ## Rows and their serialization (serialize_row, deserialize_row) -/

/-- A Row as laid out in C: a uint32 id, a 33-byte username buffer and a
257 minus 1 = 256-byte email buffer (fixed-width char arrays, trailing NUL
bytes included in the buffer). -/
structure Row where
  id : Nat
  username : List Nat
  email : List Nat
deriving DecidableEq, Repr

/-- Row well-formedness: the id fits a uint32 and the two char arrays have
their declared fixed widths. -/
def Row.WF (r : Row) : Prop :=
  r.id < 4294967296 ∧ r.username.length = USERNAME_SIZE ∧
    r.email.length = EMAIL_SIZE

instance (r : Row) : Decidable r.WF := by
  unfold Row.WF
  infer_instance

/-- serialize_row: three memcpys into the destination buffer at
ID_OFFSET, USERNAME_OFFSET and EMAIL_OFFSET. -/
def serialize_row (source : Row) (destination : List Nat) : List Nat :=
  memcpyAt
    (memcpyAt (memcpyAt destination ID_OFFSET (toLE4 source.id))
      USERNAME_OFFSET source.username)
    EMAIL_OFFSET source.email

/-- deserialize_row: three memcpys out of the source buffer at the same
offsets. -/
def deserialize_row (source : List Nat) : Row :=
  { id := fromLE4 (segRead source ID_OFFSET ID_SIZE)
    username := segRead source USERNAME_OFFSET USERNAME_SIZE
    email := segRead source EMAIL_OFFSET EMAIL_SIZE }

/-! ## Node header byte operations (for initialize_leaf_node) -/

/-- set_node_type: store one byte (the NodeType value) at NODE_TYPE_OFFSET. -/
def set_node_type (node : List Nat) (t : Nat) : List Nat :=
  memcpyAt node NODE_TYPE_OFFSET [t % 256]

/-- set_node_root: store one byte (the bool) at IS_ROOT_OFFSET. -/
def set_node_root (node : List Nat) (b : Bool) : List Nat :=
  memcpyAt node IS_ROOT_OFFSET [if b then 1 else 0]

/-- Store through the uint32 pointer returned by leaf_node_num_cells:
four bytes at LEAF_NODE_NUM_CELLS_OFFSET. -/
def leaf_store_num_cells (node : List Nat) (n : Nat) : List Nat :=
  memcpyAt node LEAF_NODE_NUM_CELLS_OFFSET (toLE4 n)

/-- initialize_leaf_node: set_node_type(node, NODE_LEAF);
set_node_root(node, false); *leaf_node_num_cells(node) = 0.
The C function writes nothing else; in particular it does not touch the
next_leaf field at LEAF_NODE_NEXT_LEAF_OFFSET. -/
def initialize_leaf_node (node : List Nat) : List Nat :=
  leaf_store_num_cells (set_node_root (set_node_type node NODE_LEAF) false) 0

/-- get_node_type: one-byte load at NODE_TYPE_OFFSET. -/
def get_node_type_byte (node : List Nat) : Nat :=
  loadByte (segRead node NODE_TYPE_OFFSET NODE_TYPE_SIZE)

/-- is_node_root: one-byte load at IS_ROOT_OFFSET, cast to bool. -/
def is_node_root_byte (node : List Nat) : Bool :=
  loadByte (segRead node IS_ROOT_OFFSET IS_ROOT_SIZE) != 0

/-- Load through the uint32 pointer returned by leaf_node_num_cells. -/
def leaf_load_num_cells (node : List Nat) : Nat :=
  fromLE4 (segRead node LEAF_NODE_NUM_CELLS_OFFSET LEAF_NODE_NUM_CELLS_SIZE)

/-- Load of the (reserved) next_leaf field: bytes 10..13 of a leaf page. -/
def leaf_load_next_leaf (node : List Nat) : Nat :=
  fromLE4 (segRead node LEAF_NODE_NEXT_LEAF_OFFSET LEAF_NODE_NEXT_LEAF_SIZE)

/-! ## Tree tier: pages as structured nodes -/

/-- One leaf cell: a key and the ROW_SIZE value bytes.  The value is
`some bytes` when the engine wrote a serialized row at the cell's value
offset.  It is `none` for the one cell written during
leaf_node_split_and_insert, where serialize_row lands on the cell start,
leaving the value region holding the row bytes shifted by four plus a
stale four-byte tail; no operation of this program ever reads those bytes
back, so they are left unspecified (see splitWrittenCell). -/
structure LeafCell where
  key : Nat
  value : Option (List Nat)
deriving DecidableEq, Repr

def dfltCell : LeafCell := ⟨0, none⟩

/-- One internal-node cell: a child page number and a key. -/
structure InternalCell where
  child : Nat
  key : Nat
deriving DecidableEq, Repr

/-- A page interpreted as a node.  A leaf carries its is_root flag and its
num_cells valid cells; an internal node carries its is_root flag, its
num_keys (child, key) cells and the right child page number. -/
inductive Node where
  | leaf (root : Bool) (cells : List LeafCell)
  | internal (root : Bool) (cells : List InternalCell) (rightChild : Nat)
deriving DecidableEq, Repr

/-- The NodeType tag stored in the first header byte. -/
inductive CNodeType where
  | internalType
  | leafType
deriving DecidableEq, Repr

/-- get_node_type on a structured page. -/
def Node.nodeType : Node → CNodeType
  | .leaf _ _ => .leafType
  | .internal _ _ _ => .internalType

/-- is_node_root on a structured page. -/
def Node.isRootFlag : Node → Bool
  | .leaf r _ => r
  | .internal r _ _ => r

/-- set_node_root on a structured page. -/
def Node.setRootFlag : Node → Bool → Node
  | .leaf _ c, b => .leaf b c
  | .internal _ c rc, b => .internal b c rc

/-- The valid cells of a leaf page.  The modelled operations only apply
this to pages whose type tag is leaf. -/
def Node.leafCells : Node → List LeafCell
  | .leaf _ cells => cells
  | .internal _ _ _ => []

/-- The keys of a leaf page, in cell order. -/
def Node.leafKeys (n : Node) : List Nat := n.leafCells.map LeafCell.key

/-- The cells of an internal page. -/
def Node.internalCells : Node → List InternalCell
  | .internal _ cells _ => cells
  | .leaf _ _ => []

/-- internal_node_num_keys. -/
def Node.numKeys (n : Node) : Nat := n.internalCells.length

/-- The keys of an internal page, in cell order. -/
def Node.internalKeys (n : Node) : List Nat := n.internalCells.map InternalCell.key

/-- internal_node_right_child. -/
def Node.rightChildPage : Node → Nat
  | .internal _ _ rc => rc
  | .leaf _ _ => 0

/-- internal_node_child(node, i): the right child when i = num_keys, else
cell i's child pointer.  The C function exits the process when
i > num_keys; the binary search always passes i ≤ num_keys, so that
branch is dead at the one call site and the accessor is kept total. -/
def Node.internalChild (n : Node) (i : Nat) : Nat :=
  if i = n.numKeys then n.rightChildPage
  else (n.internalCells.getD i ⟨0, 0⟩).child

/-- C's leaf_node_num_cells reads the uint32 at byte offset
COMMON_NODE_HEADER_SIZE of whatever page it is given.  On a leaf these
bytes are num_cells; on an internal page the same offset is
INTERNAL_NODE_NUM_KEYS_OFFSET, so the load returns num_keys.
execute_insert performs this load on the root page whatever its type. -/
def Node.rawNumCells : Node → Nat
  | .leaf _ cells => cells.length
  | .internal _ cells _ => cells.length

/-- C's leaf_node_key(node, i) reads the uint32 at byte offset
LEAF_NODE_HEADER_SIZE + i * LEAF_NODE_CELL_SIZE.  On a leaf with
i < num_cells this is cell i's key.  On an internal page, offset
LEAF_NODE_HEADER_SIZE = 14 equals INTERNAL_NODE_HEADER_SIZE, so i = 0
reads the child page number of internal cell 0.  execute_insert reaches
this read only under i < rawNumCells, and an internal root built by this
program always has exactly one key, so i = 0 is the only index that
occurs there; a larger index would read stale bytes past the internal
cells, which we do not model (the 0 below is never observed). -/
def Node.rawLeafKey : Node → Nat → Nat
  | .leaf _ cells, i => (cells.getD i dfltCell).key
  | .internal _ cells _, i => if i = 0 then (cells.getD 0 ⟨0, 0⟩).child else 0

/-- get_node_max_key: last internal key, or last leaf cell key. -/
def get_node_max_key : Node → Nat
  | .internal _ cells _ => (cells.getD (cells.length - 1) ⟨0, 0⟩).key
  | .leaf _ cells => (cells.getD (cells.length - 1) dfltCell).key

/-! ## Pager and table -/

/-- The table handle.  C's db_open never assigns table->root_page_num (the
struct comes straight from malloc); every use of the field in the program
needs it to be 0, the spec fixes root_page_num = 0, and page 0 is indeed
where db_open installs the root node.  We model the field as the constant
0 (rootPageNum below). -/
structure Table where
  pages : List Node
deriving DecidableEq, Repr

def Table.rootPageNum (_ : Table) : Nat := 0

def emptyLeafNode : Node := .leaf false []

/-- get_page for an in-range page number (demand loading and the cache
are the pager's business; every call the modelled operations make is in
range, see get_page_fatal for the bounds test itself). -/
def Table.getPage (t : Table) (n : Nat) : Node := t.pages.getD n emptyLeafNode

def Table.setPage (t : Table) (n : Nat) (nd : Node) : Table :=
  ⟨t.pages.set n nd⟩

/-- get_unused_page_num: pager->num_pages, the next page number. -/
def Table.unusedPageNum (t : Table) : Nat := t.pages.length

/-- The bounds test at the top of get_page: the fatal out-of-bounds
branch is taken exactly when page_num > TABLE_MAX_PAGES (strict). -/
def get_page_fatal (pageNum : Nat) : Bool := TABLE_MAX_PAGES < pageNum

/-- The pager slot index get_page dereferences when its fatal branch is
not taken: pages[page_num] itself (an array of TABLE_MAX_PAGES slots). -/
def get_page_slot_accessed (pageNum : Nat) : Option Nat :=
  if get_page_fatal pageNum then none else some pageNum

/-! ## Search (leaf_node_find, internal_node_find, table_find) -/

/-- The position where k would be inserted into keys to keep it sorted:
the length of the prefix of keys strictly below k. -/
def lowerBoundPos (keys : List Nat) (k : Nat) : Nat :=
  (keys.takeWhile fun x => decide (x < k)).length

/-- The leaf_node_find binary-search loop on [lo, hi): return the probed
index on an exact key match, else narrow towards the insertion
position.  The C loop tests one_past_max_index != min_index; since the
loop keeps lo ≤ hi, that test is lo < hi. -/
def leafFindGo (keys : List Nat) (key : Nat) : Nat → Nat → Nat → Nat
  | 0, lo, _ => lo
  | fuel + 1, lo, hi =>
    if lo < hi then
      if key = keys.getD ((hi + lo) / 2) 0 then (hi + lo) / 2
      else if key < keys.getD ((hi + lo) / 2) 0 then
        leafFindGo keys key fuel lo ((hi + lo) / 2)
      else leafFindGo keys key fuel ((hi + lo) / 2 + 1) hi
    else lo

/-- The loop with its iteration count: every pass shrinks the interval
[lo, hi) by at least one, so hi − lo passes always reach lo = hi, and on
an exhausted interval the loop returns lo exactly as the C loop exits. -/
def leafFindLoop (keys : List Nat) (key : Nat) (lo hi : Nat) : Nat :=
  leafFindGo keys key (hi - lo) lo hi

/-- The internal_node_find binary-search loop body: narrow [lo, hi) to
the smallest index whose key is ≥ key (the C test is key_to_right >=
key), with the same explicit iteration count. -/
def internalFindGo (keys : List Nat) (key : Nat) : Nat → Nat → Nat → Nat
  | 0, lo, _ => lo
  | fuel + 1, lo, hi =>
    if lo < hi then
      if key ≤ keys.getD ((lo + hi) / 2) 0 then
        internalFindGo keys key fuel lo ((lo + hi) / 2)
      else internalFindGo keys key fuel ((lo + hi) / 2 + 1) hi
    else lo

def internalFindLoop (keys : List Nat) (key : Nat) (lo hi : Nat) : Nat :=
  internalFindGo keys key (hi - lo) lo hi

/-- leaf_node_find: a cursor on page pageNum at the binary-search
position.  The C function mallocs the cursor and assigns table, page_num
and cell_num; end_of_table is left unassigned there, and no caller reads
it before table_start overwrites it, so it is modelled as false. -/
structure Cursor where
  pageNum : Nat
  cellNum : Nat
  endOfTable : Bool
deriving DecidableEq, Repr

def leaf_node_find (t : Table) (pageNum key : Nat) : Cursor :=
  let node := t.getPage pageNum
  ⟨pageNum, leafFindLoop node.leafKeys key 0 node.rawNumCells, false⟩

/-- internal_node_find with explicit fuel.  The C function's
internal-to-internal case calls internal_node_find(table, page_num, key)
on the same page_num it was given, so the recursion makes no progress
there; exhausting any amount of fuel (none) models that the C call never
returns.  The leaf case delegates to leaf_node_find on the child page. -/
def internal_node_find : Nat → Table → Nat → Nat → Option Cursor
  | 0, _, _, _ => none
  | fuel + 1, t, pageNum, key =>
    let node := t.getPage pageNum
    let idx := internalFindLoop node.internalKeys key 0 node.numKeys
    let childNum := node.internalChild idx
    match (t.getPage childNum).nodeType with
    | .leafType => some (leaf_node_find t childNum key)
    | .internalType => internal_node_find fuel t pageNum key

/-- table_find: descend from the root.  TABLE_MAX_PAGES units of fuel
exceed the height of any tree the pager can hold, so none means the C
call would not have returned. -/
def table_find (t : Table) (key : Nat) : Option Cursor :=
  let rootNode := t.getPage t.rootPageNum
  match rootNode.nodeType with
  | .leafType => some (leaf_node_find t t.rootPageNum key)
  | .internalType => internal_node_find TABLE_MAX_PAGES t t.rootPageNum key

/-! ## Cursors (cursor_value, cursor_advance, table_start) -/

/-- cursor_value: the value bytes of the cursor's cell. -/
def cursor_value (t : Table) (c : Cursor) : Option (List Nat) :=
  ((t.getPage c.pageNum).leafCells.getD c.cellNum dfltCell).value

/-- cursor_advance: step to the next cell of the same page and set
end_of_table once cell_num reaches the page's num_cells.  There is no
crossing into a sibling leaf. -/
def cursor_advance (t : Table) (c : Cursor) : Cursor :=
  let node := t.getPage c.pageNum
  let cell := c.cellNum + 1
  ⟨c.pageNum, cell, if node.rawNumCells ≤ cell then true else c.endOfTable⟩

/-- table_start: table_find(table, 0), then end_of_table := (num_cells of
the landing page == 0). -/
def table_start (t : Table) : Option Cursor :=
  (table_find t 0).map fun c =>
    ⟨c.pageNum, c.cellNum, (t.getPage c.pageNum).rawNumCells == 0⟩

/-! ## Insertion (leaf_node_insert, split, create_new_root, execute_insert) -/

/-- The ExecuteResult enum. -/
inductive ExecuteResult where
  | success
  | tableFull
  | duplicateKey
deriving DecidableEq, Repr

/-- The value bytes leaf_node_insert stores: serialize_row into the
ROW_SIZE-byte value region of the cell.  For a well-formed row the write
covers the whole region, so the region's previous content is irrelevant
and is modelled as zero bytes. -/
def rowBytes (r : Row) : List Nat :=
  serialize_row r (List.replicate ROW_SIZE 0)

/-- The leaf cell the engine writes on a normal (non-split) insert. -/
def cellOfRow (r : Row) : LeafCell := ⟨r.id, some (rowBytes r)⟩

/-- The cell produced at the cursor position during a split:
serialize_row(value, destination) writes the row at the cell start
instead of the value offset, so the key field receives the row's id (the
first four bytes of the serialized row, read back as a uint32), and the
value region holds the row bytes shifted by four plus a stale tail
(modelled as unspecified, see LeafCell). -/
def splitWrittenCell (value : Row) : LeafCell :=
  ⟨fromLE4 (toLE4 value.id), none⟩

/-- One iteration of the split distribution loop at index i: the
destination is the new node when i ≥ LEAF_NODE_LEFT_SPLIT_COUNT, at index
i % LEAF_NODE_LEFT_SPLIT_COUNT; the cell written is the incoming cell at
the cursor index, old cell i − 1 above it, or old cell i below it.  Reads
go through the current old-node buffer exactly as in C (the loop runs
downwards, so they in fact always see original cells). -/
def splitStep (pos : Nat) (incoming : LeafCell)
    (bufs : List LeafCell × List LeafCell) (i : Nat) :
    List LeafCell × List LeafCell :=
  let src : LeafCell :=
    if i = pos then incoming
    else if pos < i then bufs.1.getD (i - 1) dfltCell
    else bufs.1.getD i dfltCell
  let idx := i % LEAF_NODE_LEFT_SPLIT_COUNT
  if LEAF_NODE_LEFT_SPLIT_COUNT ≤ i then (bufs.1, bufs.2.set idx src)
  else (bufs.1.set idx src, bufs.2)

/-- The loop for (int32_t i = LEAF_NODE_MAX_CELLS; i >= 0; i--),
started at i = LEAF_NODE_MAX_CELLS. -/
def splitLoop (pos : Nat) (incoming : LeafCell) :
    Nat → List LeafCell × List LeafCell → List LeafCell × List LeafCell
  | 0, bufs => splitStep pos incoming bufs 0
  | i + 1, bufs => splitLoop pos incoming i (splitStep pos incoming bufs (i + 1))

/-- create_new_root: copy the (already rewritten) root page to a freshly
allocated left-child page, clear the copy's root flag, and rewrite page 0
in place as an internal root with one key — the left child's max key —
and the two children. -/
def create_new_root (t : Table) (rightChildPageNum : Nat) : Table :=
  let root := t.getPage t.rootPageNum
  let leftChildPageNum := t.unusedPageNum
  let leftChild := root.setRootFlag false
  let newRoot : Node :=
    .internal true [⟨leftChildPageNum, get_node_max_key leftChild⟩] rightChildPageNum
  ⟨(t.pages.set t.rootPageNum newRoot) ++ [leftChild]⟩

/-- leaf_node_split_and_insert: allocate the new right page (appended at
get_unused_page_num), initialize it as a leaf, run the distribution loop,
set both cell counts (the take of each buffer), then promote a new root
if the old node was the root — otherwise the C process exits with
"Need to implement updating parent after split" (none). -/
def leaf_node_split_and_insert (t : Table) (c : Cursor) (key : Nat)
    (value : Row) : Option Table :=
  let oldNode := t.getPage c.pageNum
  let newPageNum := t.unusedPageNum
  let bufs := splitLoop c.cellNum (splitWrittenCell value) LEAF_NODE_MAX_CELLS
    (oldNode.leafCells, List.replicate LEAF_NODE_RIGHT_SPLIT_COUNT dfltCell)
  let oldNode2 : Node := .leaf oldNode.isRootFlag (bufs.1.take LEAF_NODE_LEFT_SPLIT_COUNT)
  let newNode2 : Node := .leaf false (bufs.2.take LEAF_NODE_RIGHT_SPLIT_COUNT)
  let t2 : Table := ⟨(t.pages.set c.pageNum oldNode2) ++ [newNode2]⟩
  if oldNode.isRootFlag then some (create_new_root t2 newPageNum)
  else none

/-- leaf_node_insert: split when the page is full; otherwise shift the
cells from cell_num on one place right and write the key and serialized
row at cell_num — for cell_num ≤ num_cells (which leaf_node_find
guarantees) that is list insertion at cell_num. -/
def leaf_node_insert (t : Table) (c : Cursor) (key : Nat) (value : Row) :
    Option Table :=
  let node := t.getPage c.pageNum
  if LEAF_NODE_MAX_CELLS ≤ node.rawNumCells then
    leaf_node_split_and_insert t c key value
  else
    let cells := node.leafCells
    let cells2 := cells.take c.cellNum ++ ⟨key, some (rowBytes value)⟩ :: cells.drop c.cellNum
    some (t.setPage c.pageNum (.leaf node.isRootFlag cells2))

/-- execute_insert: load the cell-count field of the ROOT page and, when
the cursor's cell index lies below that count, compare the key at that
index — also read from the ROOT page via leaf_node_key, even when the
cursor's leaf is a different page — against the new key; on a hit report
the duplicate without touching any page, otherwise insert at the
cursor. -/
def execute_insert (t : Table) (rowToInsert : Row) :
    Option (ExecuteResult × Table) :=
  let node := t.getPage t.rootPageNum
  let numCells := node.rawNumCells
  let keyToInsert := rowToInsert.id
  match table_find t keyToInsert with
  | none => none
  | some cursor =>
    if cursor.cellNum < numCells ∧ node.rawLeafKey cursor.cellNum = keyToInsert then
      some (.duplicateKey, t)
    else
      (leaf_node_insert t cursor keyToInsert rowToInsert).map fun t2 =>
        (.success, t2)

/-! ## Select (execute_select) -/

/-- The select loop: read the cursor's cell, emit the deserialized row,
advance, until end_of_table.  none signals either reading value bytes the
split left unspecified, or fuel exhaustion; execute_select supplies
enough fuel for the cursor's page, the only page the cursor ever visits. -/
def selectLoop : Nat → Table → Cursor → Option (List Row)
  | 0, _, c => if c.endOfTable then some [] else none
  | fuel + 1, t, c =>
    if c.endOfTable then some []
    else
      match cursor_value t c with
      | none => none
      | some bytes =>
        (selectLoop fuel t (cursor_advance t c)).map fun rest =>
          deserialize_row bytes :: rest

/-- execute_select: start cursor, then loop. -/
def execute_select (t : Table) : Option (List Row) :=
  match table_start t with
  | none => none
  | some c => selectLoop ((t.getPage c.pageNum).rawNumCells + 1) t c

/-! ## Opening and closing (db_open, db_close) -/

/-- A database file is modelled by the list of node pages it holds (the
file length is always a whole number of pages, and db_close writes every
page).  db_open with num_pages = 0 initializes page 0 as an empty leaf
and sets its root flag; on a nonempty file the pages are demand-loaded
unchanged, modelled as the cache already holding them. -/
def db_open (filePages : List Node) : Table :=
  if filePages.length = 0 then ⟨[Node.leaf true []]⟩
  else ⟨filePages⟩

/-- db_close: flush every resident page; the file afterwards holds
exactly the pager's pages. -/
def db_close (t : Table) : List Node := t.pages

/-- A sequence of execute_insert calls, propagating the table. -/
def runInserts (t : Table) : List Row → Option Table
  | [] => some t
  | r :: rs =>
    match execute_insert t r with
    | none => none
    | some (_, t2) => runInserts t2 rs

/-! ## Reachable tables and the root-flag invariant -/

/-- Tables reachable from opening an empty database file through
completed operations: inserts (with or without a split), selects, finds
(which do not modify pages) and close followed by reopen. -/
inductive Reachable : Table → Prop
  | openEmpty : Reachable (db_open [])
  | insertStep (t : Table) (r : Row) (res : ExecuteResult) (t2 : Table) :
      Reachable t → execute_insert t r = some (res, t2) → Reachable t2
  | reopen (t : Table) : Reachable t → Reachable (db_open (db_close t))

/-- The root-identity invariant: the table has pages, page 0 has the
is_root flag set, and every other page has it clear. -/
def rootFlagInv (t : Table) : Prop :=
  t.pages ≠ [] ∧ ∀ i, i < t.pages.length → ((t.getPage i).isRootFlag = true ↔ i = 0)

/-! ## Concrete data for the executable checks -/

/-- A well-formed row with the given id and zero-filled fixed-width
string buffers. -/
def mkRow (i : Nat) : Row :=
  ⟨i, List.replicate USERNAME_SIZE 0, List.replicate EMAIL_SIZE 0⟩

/-- Fourteen rows with ids 1..14: one more than LEAF_NODE_MAX_CELLS, so
inserting them all forces exactly one leaf split. -/
def rows14 : List Row := (List.range 14).map fun i => mkRow (i + 1)

/-- The table after inserting rows14 into a freshly created database. -/
def table14 : Table := (runInserts (db_open []) rows14).getD ⟨[]⟩

/-- Thirteen strictly sorted cells with keys 10, 20, ..., 130. -/
def cells13 : List LeafCell := (List.range 13).map fun i => ⟨10 * (i + 1), none⟩

/-- A table whose single page is a full root leaf. -/
def table13 : Table := ⟨[Node.leaf true cells13]⟩

/-- A page-0-rooted tree of height three: the root's chosen child for
small keys is itself an internal node.  The running program cannot build
one (a non-root split exits first), but db_open accepts any well-formed
page file, and the spec describes table_find for trees of any height. -/
def tableH3 : Table :=
  ⟨[ .internal true [⟨1, 10⟩] 2,
     .internal false [⟨3, 5⟩] 4,
     .leaf false [⟨20, none⟩],
     .leaf false [⟨3, none⟩],
     .leaf false [⟨8, none⟩] ]⟩

/-! ## Byte-segment lemmas about memcpy -/

theorem length_memcpyAt (dest src : List Nat) (off : Nat)
    (h : off + src.length ≤ dest.length) :
    (memcpyAt dest off src).length = dest.length := by
  simp only [memcpyAt, List.length_append, List.length_take, List.length_drop]
  omega

theorem segRead_append_first (A B : List Nat) (off len : Nat)
    (h : off + len ≤ A.length) :
    segRead (A ++ B) off len = segRead A off len := by
  simp only [segRead]
  rw [List.drop_append_of_le_length (by omega),
    List.take_append_of_le_length (by simp [List.length_drop]; omega)]

theorem segRead_append_second (A B : List Nat) (off len : Nat)
    (h : A.length ≤ off) :
    segRead (A ++ B) off len = segRead B (off - A.length) len := by
  simp only [segRead]
  conv_lhs => rw [show off = A.length + (off - A.length) from by omega]
  rw [List.drop_append]

theorem segRead_take (l : List Nat) (k off len : Nat) (h : off + len ≤ k) :
    segRead (l.take k) off len = segRead l off len := by
  simp only [segRead, List.drop_take, List.take_take]
  congr 1
  omega

theorem segRead_drop (l : List Nat) (k off len : Nat) :
    segRead (l.drop k) off len = segRead l (k + off) len := by
  simp only [segRead, List.drop_drop]

theorem segRead_self (l : List Nat) : segRead l 0 l.length = l := by
  simp [segRead]

theorem segRead_memcpyAt_self (dest src : List Nat) (off : Nat)
    (h : off ≤ dest.length) :
    segRead (memcpyAt dest off src) off src.length = src := by
  have htk : (dest.take off).length = off := by
    simp [List.length_take]; omega
  simp only [memcpyAt]
  rw [segRead_append_first _ _ _ _ (by simp [List.length_append, htk]),
    segRead_append_second _ _ _ _ htk.le, htk, Nat.sub_self]
  have h2 := segRead_self src
  simpa using h2

theorem segRead_memcpyAt_before (dest src : List Nat) (off off2 len2 : Nat)
    (hd : off2 + len2 ≤ off) (h : off ≤ dest.length) :
    segRead (memcpyAt dest off src) off2 len2 = segRead dest off2 len2 := by
  have htk : (dest.take off).length = off := by
    simp [List.length_take]; omega
  simp only [memcpyAt]
  rw [segRead_append_first _ _ _ _ (by simp [List.length_append, htk]; omega),
    segRead_append_first _ _ _ _ (by rw [htk]; exact hd),
    segRead_take _ _ _ _ hd]

theorem segRead_memcpyAt_after (dest src : List Nat) (off off2 len2 : Nat)
    (hd : off + src.length ≤ off2) (h : off ≤ dest.length) :
    segRead (memcpyAt dest off src) off2 len2 = segRead dest off2 len2 := by
  have htk : (dest.take off ++ src).length = off + src.length := by
    simp [List.length_append, List.length_take]; omega
  simp only [memcpyAt, ← List.append_assoc]
  rw [segRead_append_second _ _ _ _ (by rw [htk]; omega), htk, segRead_drop]
  have h2 : off + src.length + (off2 - (off + src.length)) = off2 := by omega
  rw [h2]

theorem drop_memcpyAt_ge (dest src : List Nat) (off k : Nat)
    (hd : off + src.length ≤ k) (h : off ≤ dest.length) :
    (memcpyAt dest off src).drop k = dest.drop k := by
  have htk : (dest.take off ++ src).length = off + src.length := by
    simp [List.length_append, List.length_take]; omega
  simp only [memcpyAt, ← List.append_assoc]
  conv_lhs =>
    rw [show k = (dest.take off ++ src).length + (k - (off + src.length)) from by
      rw [htk]; omega]
  rw [List.drop_append, List.drop_drop]
  congr 1
  omega

theorem fromLE4_toLE4 (n : Nat) (h : n < 4294967296) : fromLE4 (toLE4 n) = n := by
  simp only [toLE4, fromLE4, List.getD_cons_zero, List.getD_cons_succ]
  omega

/-! ## Serialization lemmas -/

theorem serialize_row_segs (r : Row) (dest : List Nat)
    (hu : r.username.length = USERNAME_SIZE) (he : r.email.length = EMAIL_SIZE)
    (hd : ROW_SIZE ≤ dest.length) :
    (serialize_row r dest).length = dest.length ∧
    segRead (serialize_row r dest) ID_OFFSET ID_SIZE = toLE4 r.id ∧
    segRead (serialize_row r dest) USERNAME_OFFSET USERNAME_SIZE = r.username ∧
    segRead (serialize_row r dest) EMAIL_OFFSET EMAIL_SIZE = r.email ∧
    (serialize_row r dest).drop ROW_SIZE = dest.drop ROW_SIZE := by
  have hu33 : r.username.length = 33 := hu
  have he256 : r.email.length = 256 := he
  have hd293 : 293 ≤ dest.length := hd
  have hl1 : (memcpyAt dest 0 (toLE4 r.id)).length = dest.length :=
    length_memcpyAt _ _ _ (by simp [toLE4]; omega)
  have hl2 : (memcpyAt (memcpyAt dest 0 (toLE4 r.id)) 4 r.username).length
      = dest.length := by
    rw [length_memcpyAt _ _ _ (by rw [hl1]; omega), hl1]
  have hl3 : (serialize_row r dest).length = dest.length := by
    show (memcpyAt (memcpyAt (memcpyAt dest 0 (toLE4 r.id)) 4 r.username)
      37 r.email).length = dest.length
    rw [length_memcpyAt _ _ _ (by rw [hl2]; omega), hl2]
  refine ⟨hl3, ?_, ?_, ?_, ?_⟩
  · show segRead (memcpyAt (memcpyAt (memcpyAt dest 0 (toLE4 r.id))
      4 r.username) 37 r.email) 0 4 = toLE4 r.id
    rw [segRead_memcpyAt_before _ _ _ _ _ (by omega) (by rw [hl2]; omega),
      segRead_memcpyAt_before _ _ _ _ _ (by omega) (by rw [hl1]; omega)]
    exact segRead_memcpyAt_self dest (toLE4 r.id) 0 (by omega)
  · show segRead (memcpyAt (memcpyAt (memcpyAt dest 0 (toLE4 r.id))
      4 r.username) 37 r.email) 4 33 = r.username
    rw [segRead_memcpyAt_before _ _ _ _ _ (by omega) (by rw [hl2]; omega)]
    have h2 := segRead_memcpyAt_self (memcpyAt dest 0 (toLE4 r.id))
      r.username 4 (by rw [hl1]; omega)
    rw [hu33] at h2
    exact h2
  · show segRead (memcpyAt (memcpyAt (memcpyAt dest 0 (toLE4 r.id))
      4 r.username) 37 r.email) 37 256 = r.email
    have h3 := segRead_memcpyAt_self
      (memcpyAt (memcpyAt dest 0 (toLE4 r.id)) 4 r.username) r.email 37
      (by rw [hl2]; omega)
    rw [he256] at h3
    exact h3
  · show (memcpyAt (memcpyAt (memcpyAt dest 0 (toLE4 r.id))
      4 r.username) 37 r.email).drop 293 = dest.drop 293
    rw [drop_memcpyAt_ge _ _ _ _ (by omega) (by rw [hl2]; omega),
      drop_memcpyAt_ge _ _ _ _ (by omega) (by rw [hl1]; omega),
      drop_memcpyAt_ge _ _ _ _ (by simp [toLE4]) (by omega)]

theorem deserialize_serialize (r : Row) (dest : List Nat) (hwf : r.WF)
    (hd : ROW_SIZE ≤ dest.length) :
    deserialize_row (serialize_row r dest) = r := by
  obtain ⟨hid, hu, he⟩ := hwf
  obtain ⟨-, h1, h2, h3, -⟩ := serialize_row_segs r dest hu he hd
  unfold deserialize_row
  rw [h1, h2, h3, fromLE4_toLE4 _ hid]

/-- deserialize of the bytes a normal insert stores gives the row back. -/
theorem deserialize_rowBytes (r : Row) (hwf : r.WF) :
    deserialize_row (rowBytes r) = r :=
  deserialize_serialize r (List.replicate ROW_SIZE 0) hwf (by simp)

/-! ## The lower bound and the leaf binary search -/

theorem length_takeWhile_eq (f : Nat → Bool) (keys : List Nat) (p : Nat)
    (hp : p ≤ keys.length)
    (h1 : ∀ i, i < p → f (keys.getD i 0) = true)
    (h2 : ∀ i, p ≤ i → i < keys.length → f (keys.getD i 0) = false) :
    (keys.takeWhile f).length = p := by
  induction keys generalizing p with
  | nil =>
    simp only [List.length_nil] at hp
    simp [List.takeWhile]
    omega
  | cons a l ih =>
    cases p with
    | zero =>
      have h0 := h2 0 (Nat.le_refl 0) (by simp)
      simp only [List.getD_cons_zero] at h0
      simp [List.takeWhile_cons, h0]
    | succ q =>
      have ha := h1 0 (Nat.succ_pos q)
      simp only [List.getD_cons_zero] at ha
      have hrec := ih q (by simpa using hp)
        (fun i hi => by simpa using h1 (i + 1) (by omega))
        (fun i h1i h2i => by simpa using h2 (i + 1) (by omega) (by simpa using h2i))
      simp only [List.takeWhile_cons, ha, if_true, List.length_cons]
      omega

theorem lowerBoundPos_spec (keys : List Nat) (k p : Nat)
    (hp : p ≤ keys.length)
    (hlow : ∀ i, i < p → keys.getD i 0 < k)
    (hhigh : ∀ i, p ≤ i → i < keys.length → k ≤ keys.getD i 0) :
    lowerBoundPos keys k = p := by
  unfold lowerBoundPos
  refine length_takeWhile_eq _ keys p hp (fun i hi => ?_) (fun i h1i h2i => ?_)
  · simpa using hlow i hi
  · simp only [decide_eq_false_iff_not]
    exact Nat.not_lt.mpr (hhigh i h1i h2i)

theorem lowerBoundPos_le_length (keys : List Nat) (k : Nat) :
    lowerBoundPos keys k ≤ keys.length :=
  (List.takeWhile_sublist _).length_le

theorem sorted_getD_lt (keys : List Nat) (hsor : keys.Sorted (· < ·))
    {i j : Nat} (hij : i < j) (hj : j < keys.length) :
    keys.getD i 0 < keys.getD j 0 := by
  rw [List.getD_eq_getElem _ _ (by omega), List.getD_eq_getElem _ _ hj]
  exact List.pairwise_iff_getElem.mp hsor i j (by omega) hj hij

/-- The leaf binary search computes the lower-bound position on a
strictly sorted key array, both when the key is present (the equality
probe can only hit at the lower bound) and when it is absent. -/
theorem leafFindGo_eq_lowerBound (keys : List Nat) (k : Nat)
    (hsor : keys.Sorted (· < ·)) :
    ∀ n lo hi, hi - lo ≤ n → lo ≤ hi → hi ≤ keys.length →
      (∀ i, i < lo → keys.getD i 0 < k) →
      (∀ i, hi ≤ i → i < keys.length → k ≤ keys.getD i 0) →
      leafFindGo keys k n lo hi = lowerBoundPos keys k := by
  intro n
  induction n with
  | zero =>
    intro lo hi hn hlh hhl hlow hhigh
    have heq : lo = hi := by omega
    subst heq
    rw [leafFindGo]
    exact (lowerBoundPos_spec keys k lo (by omega) hlow hhigh).symm
  | succ m ih =>
    intro lo hi hn hlh hhl hlow hhigh
    rw [leafFindGo]
    by_cases hlt : lo < hi
    · rw [if_pos hlt]
      by_cases heq : k = keys.getD ((hi + lo) / 2) 0
      · rw [if_pos heq]
        refine (lowerBoundPos_spec keys k _ (by omega) (fun i hi2 => ?_)
          (fun i h1 h2 => ?_)).symm
        · rcases Nat.lt_or_ge i lo with h | h
          · exact hlow i h
          · have := sorted_getD_lt keys hsor (i := i) (j := (hi + lo) / 2) hi2
              (by omega)
            omega
        · rcases Nat.eq_or_lt_of_le h1 with h | h
          · rw [← h]; omega
          · have := sorted_getD_lt keys hsor (i := (hi + lo) / 2) (j := i) h h2
            omega
      · rw [if_neg heq]
        by_cases hltk : k < keys.getD ((hi + lo) / 2) 0
        · rw [if_pos hltk]
          refine ih lo ((hi + lo) / 2) (by omega) (by omega) (by omega) hlow ?_
          intro i h1 h2
          rcases Nat.eq_or_lt_of_le h1 with h | h
          · rw [← h]; omega
          · have := sorted_getD_lt keys hsor (i := (hi + lo) / 2) (j := i) h h2
            omega
        · rw [if_neg hltk]
          have hgt : keys.getD ((hi + lo) / 2) 0 < k := by omega
          refine ih ((hi + lo) / 2 + 1) hi (by omega) (by omega) hhl ?_ hhigh
          intro i h1
          rcases Nat.lt_or_ge i lo with h | h
          · exact hlow i h
          · rcases Nat.lt_or_ge i ((hi + lo) / 2) with h3 | h3
            · have := sorted_getD_lt keys hsor (i := i) (j := (hi + lo) / 2) h3
                (by omega)
              omega
            · have hieq : i = (hi + lo) / 2 := by omega
              rw [hieq]
              exact hgt
    · rw [if_neg hlt]
      have heq2 : lo = hi := by omega
      subst heq2
      exact (lowerBoundPos_spec keys k lo (by omega) hlow hhigh).symm

/-- The leaf binary search computes the lower-bound position on a
strictly sorted key array, both when the key is present (the equality
probe can only hit at the lower bound) and when it is absent. -/
theorem leafFindLoop_eq_lowerBound (keys : List Nat) (k : Nat)
    (hsor : keys.Sorted (· < ·)) :
    ∀ n lo hi, hi - lo ≤ n → lo ≤ hi → hi ≤ keys.length →
      (∀ i, i < lo → keys.getD i 0 < k) →
      (∀ i, hi ≤ i → i < keys.length → k ≤ keys.getD i 0) →
      leafFindLoop keys k lo hi = lowerBoundPos keys k := by
  intro _ lo hi _ hlh hhl hlow hhigh
  unfold leafFindLoop
  exact leafFindGo_eq_lowerBound keys k hsor (hi - lo) lo hi (Nat.le_refl _)
    hlh hhl hlow hhigh

/-! ## Sorted insertion at the lower bound -/

theorem take_length_takeWhile (f : Nat → Bool) (l : List Nat) :
    l.take (l.takeWhile f).length = l.takeWhile f := by
  induction l with
  | nil => simp
  | cons a t ih =>
    rw [List.takeWhile_cons]
    by_cases h : f a = true
    · rw [if_pos h, List.length_cons, List.take_succ_cons, ih]
    · rw [if_neg h]
      simp

theorem drop_length_takeWhile (f : Nat → Bool) (l : List Nat) :
    l.drop (l.takeWhile f).length = l.dropWhile f := by
  induction l with
  | nil => simp
  | cons a t ih =>
    rw [List.takeWhile_cons, List.dropWhile_cons]
    by_cases h : f a = true
    · rw [if_pos h, if_pos h, List.length_cons, List.drop_succ_cons, ih]
    · rw [if_neg h, if_neg h]
      simp

theorem take_lowerBound_eq_takeWhile (keys : List Nat) (k : Nat) :
    keys.take (lowerBoundPos keys k) = keys.takeWhile fun x => decide (x < k) := by
  unfold lowerBoundPos
  exact take_length_takeWhile _ keys

theorem drop_lowerBound_eq_dropWhile (keys : List Nat) (k : Nat) :
    keys.drop (lowerBoundPos keys k) = keys.dropWhile fun x => decide (x < k) := by
  unfold lowerBoundPos
  exact drop_length_takeWhile _ keys

theorem dropWhile_head_false (f : Nat → Bool) (l : List Nat) (b : Nat)
    (t : List Nat) (h : l.dropWhile f = b :: t) : f b = false := by
  induction l with
  | nil => simp [List.dropWhile] at h
  | cons a l ih =>
    rw [List.dropWhile_cons] at h
    by_cases hfa : f a = true
    · rw [if_pos hfa] at h
      exact ih h
    · rw [if_neg hfa] at h
      injection h with h1 h2
      rw [← h1]
      simpa using hfa

theorem sorted_dropWhile_gt (keys : List Nat) (k : Nat)
    (hsor : keys.Sorted (· < ·)) (hk : k ∉ keys) :
    ∀ b ∈ keys.dropWhile fun x => decide (x < k), k < b := by
  cases hdw : keys.dropWhile fun x => decide (x < k) with
  | nil => simp
  | cons b0 t =>
    intro b hb
    have hsub : (b0 :: t).Sublist keys := hdw ▸ List.dropWhile_sublist _
    have hsorted2 : (b0 :: t).Sorted (· < ·) := List.Pairwise.sublist hsub hsor
    have hb0 : (fun x => decide (x < k)) b0 = false :=
      dropWhile_head_false _ keys b0 t hdw
    have hkb0 : ¬ b0 < k := by simpa using hb0
    have hbk : b ≠ k := fun hbe => hk (hbe ▸ hsub.subset hb)
    rcases List.mem_cons.mp hb with rfl | hbt
    · omega
    · have : b0 < b := (List.sorted_cons.mp hsorted2).1 b hbt
      omega

theorem sorted_insert_lowerBound (keys : List Nat) (k : Nat)
    (hsor : keys.Sorted (· < ·)) (hk : k ∉ keys) :
    (keys.take (lowerBoundPos keys k) ++
      k :: keys.drop (lowerBoundPos keys k)).Sorted (· < ·) := by
  rw [take_lowerBound_eq_takeWhile, drop_lowerBound_eq_dropWhile]
  show List.Pairwise (· < ·) _
  rw [List.pairwise_append]
  refine ⟨List.Pairwise.sublist (List.takeWhile_sublist _) hsor, ?_, ?_⟩
  · rw [List.pairwise_cons]
    exact ⟨fun b hb => sorted_dropWhile_gt keys k hsor hk b hb,
      List.Pairwise.sublist (List.dropWhile_sublist _) hsor⟩
  · intro a ha b hb
    have hak : a < k := by simpa using List.mem_takeWhile_imp ha
    rcases List.mem_cons.mp hb with rfl | hbt
    · exact hak
    · have := sorted_dropWhile_gt keys k hsor hk b hbt
      omega

/-! ## Closed form of the split distribution loop -/

/-- On a full page of thirteen cells the split loop distributes the
virtual fourteen-cell sequence — the old cells with the incoming cell at
the cursor position pos — as follows: the old buffer holds its first
seven cells (the six slots beyond LEAF_NODE_LEFT_SPLIT_COUNT keep their
stale previous contents), and the new buffer holds its last seven. -/
theorem splitLoop_closed (c0 c1 c2 c3 c4 c5 c6 c7 c8 c9 c10 c11 c12 nc : LeafCell)
    (pos : Nat) (hpos : pos ≤ 13) :
    splitLoop pos nc LEAF_NODE_MAX_CELLS
        ([c0, c1, c2, c3, c4, c5, c6, c7, c8, c9, c10, c11, c12],
          List.replicate LEAF_NODE_RIGHT_SPLIT_COUNT dfltCell) =
      (([c0, c1, c2, c3, c4, c5, c6, c7, c8, c9, c10, c11, c12].take pos ++
          nc :: [c0, c1, c2, c3, c4, c5, c6, c7, c8, c9, c10, c11, c12].drop pos).take 7
        ++ [c7, c8, c9, c10, c11, c12],
       ([c0, c1, c2, c3, c4, c5, c6, c7, c8, c9, c10, c11, c12].take pos ++
          nc :: [c0, c1, c2, c3, c4, c5, c6, c7, c8, c9, c10, c11, c12].drop pos).drop 7) := by
  interval_cases pos <;> rfl

theorem insert_lowerBound_perm (keys : List Nat) (k : Nat) :
    (keys.take (lowerBoundPos keys k) ++
      k :: keys.drop (lowerBoundPos keys k)).Perm (k :: keys) := by
  have h := @List.perm_middle Nat k (keys.take (lowerBoundPos keys k))
    (keys.drop (lowerBoundPos keys k))
  simpa [List.take_append_drop] using h

/-- splitLoop_closed restated for a length-13 list. -/
theorem splitLoop_closed_list (old : List LeafCell) (nc : LeafCell) (pos : Nat)
    (hlen : old.length = LEAF_NODE_MAX_CELLS) (hpos : pos ≤ LEAF_NODE_MAX_CELLS) :
    splitLoop pos nc LEAF_NODE_MAX_CELLS
        (old, List.replicate LEAF_NODE_RIGHT_SPLIT_COUNT dfltCell) =
      ((old.take pos ++ nc :: old.drop pos).take LEAF_NODE_LEFT_SPLIT_COUNT ++
          old.drop LEAF_NODE_LEFT_SPLIT_COUNT,
        (old.take pos ++ nc :: old.drop pos).drop LEAF_NODE_LEFT_SPLIT_COUNT) := by
  have hlen13 : old.length = 13 := hlen
  have hpos13 : pos ≤ 13 := hpos
  cases old with
  | nil => simp at hlen13
  | cons o0 old =>
  cases old with
  | nil => simp at hlen13
  | cons o1 old =>
  cases old with
  | nil => simp at hlen13
  | cons o2 old =>
  cases old with
  | nil => simp at hlen13
  | cons o3 old =>
  cases old with
  | nil => simp at hlen13
  | cons o4 old =>
  cases old with
  | nil => simp at hlen13
  | cons o5 old =>
  cases old with
  | nil => simp at hlen13
  | cons o6 old =>
  cases old with
  | nil => simp at hlen13
  | cons o7 old =>
  cases old with
  | nil => simp at hlen13
  | cons o8 old =>
  cases old with
  | nil => simp at hlen13
  | cons o9 old =>
  cases old with
  | nil => simp at hlen13
  | cons o10 old =>
  cases old with
  | nil => simp at hlen13
  | cons o11 old =>
  cases old with
  | nil => simp at hlen13
  | cons o12 old =>
  cases old with
  | cons o13 old =>
    simp only [List.length_cons] at hlen13
    omega
  | nil => exact splitLoop_closed o0 o1 o2 o3 o4 o5 o6 o7 o8 o9 o10 o11 o12 nc pos hpos13

/-! ## Element access helpers -/

theorem getD_append_left {α : Type} (A B : List α) (i : Nat) (d : α)
    (h : i < A.length) : (A ++ B).getD i d = A.getD i d := by
  rw [List.getD_eq_getElem _ _ (by simp [List.length_append]; omega),
    List.getD_eq_getElem _ _ h]
  exact List.getElem_append_left h

theorem getD_append_len {α : Type} (A B : List α) (b d : α) (hB : B.getD 0 d = b) :
    (A ++ B).getD A.length d = B.getD 0 d := by
  by_cases hb : 0 < B.length
  · rw [List.getD_eq_getElem _ _ (by simp [List.length_append]; omega),
      List.getD_eq_getElem _ _ hb]
    rw [List.getElem_append_right (Nat.le_refl _)]
    simp
  · have hB0 : B.length = 0 := by omega
    rw [List.getD_eq_default _ _ (by simp only [List.length_append]; omega),
      List.getD_eq_default _ _ (by omega)]

theorem getD_set_self' {α : Type} (l : List α) (i : Nat) (a d : α)
    (h : i < l.length) : (l.set i a).getD i d = a := by
  rw [List.getD_eq_getElem _ _ (by simpa using h)]
  exact List.getElem_set_self _

theorem getD_set_ne' {α : Type} (l : List α) (i j : Nat) (a d : α) (h : i ≠ j) :
    (l.set i a).getD j d = l.getD j d := by
  by_cases hj : j < l.length
  · rw [List.getD_eq_getElem _ _ (by simp only [List.length_set]; omega),
      List.getD_eq_getElem _ _ hj]
    exact List.getElem_set_ne h _
  · rw [List.getD_eq_default _ _ (by simp only [List.length_set]; omega),
      List.getD_eq_default _ _ (by omega)]

/-- A page holding a root-flagged leaf is inside the pager's page list
(the out-of-range default is a non-root empty leaf). -/
theorem getPage_root_lt_length (t : Table) (n : Nat) (cells : List LeafCell)
    (h : t.getPage n = .leaf true cells) : n < t.pages.length := by
  by_contra hn
  unfold Table.getPage at h
  rw [List.getD_eq_default _ _ (by omega)] at h
  simp [emptyLeafNode] at h

/-- The effect of create_new_root on a table whose page 0 holds a
root-flagged leaf: page 0 is rewritten in place as the internal root and
the copied-out left child is appended. -/
theorem create_new_root_eq (t2 : Table) (rcp : Nat) (cells : List LeafCell)
    (hroot : t2.getPage 0 = Node.leaf true cells) :
    create_new_root t2 rcp = ⟨t2.pages.set 0 (.internal true
      [⟨t2.pages.length, get_node_max_key (.leaf false cells)⟩] rcp) ++
      [.leaf false cells]⟩ := by
  simp only [create_new_root, Table.rootPageNum, Table.unusedPageNum, hroot,
    Node.setRootFlag]

/-- The complete effect of a root-leaf split followed by root promotion:
page 0 becomes the new internal root, the right half of the virtual
fourteen-cell sequence (old cells plus the incoming cell at the cursor
position) lands on the appended page t.pages.length, and the copied-out
left half on page t.pages.length + 1. -/
theorem split_root_result (t : Table) (c : Cursor) (k : Nat) (value : Row)
    (old : List LeafCell)
    (hpage : c.pageNum = 0)
    (hnode : t.getPage c.pageNum = .leaf true old)
    (hlen : old.length = LEAF_NODE_MAX_CELLS)
    (hpos : c.cellNum ≤ LEAF_NODE_MAX_CELLS) :
    leaf_node_split_and_insert t c k value = some ⟨t.pages.set 0
        (.internal true [⟨t.pages.length + 1, get_node_max_key (.leaf false
          ((old.take c.cellNum ++ splitWrittenCell value :: old.drop c.cellNum).take
            LEAF_NODE_LEFT_SPLIT_COUNT))⟩] t.pages.length) ++
      [.leaf false ((old.take c.cellNum ++ splitWrittenCell value :: old.drop c.cellNum).drop
          LEAF_NODE_LEFT_SPLIT_COUNT),
       .leaf false ((old.take c.cellNum ++ splitWrittenCell value :: old.drop c.cellNum).take
          LEAF_NODE_LEFT_SPLIT_COUNT)]⟩ := by
  have hnode0 : t.getPage 0 = Node.leaf true old := hpage ▸ hnode
  have hlt : 0 < t.pages.length := by
    have := getPage_root_lt_length t c.pageNum old hnode
    omega
  have hclosed := splitLoop_closed_list old (splitWrittenCell value) c.cellNum hlen hpos
  simp only [leaf_node_split_and_insert, Table.unusedPageNum, hpage, hnode0,
    Node.leafCells, Node.isRootFlag, hclosed, if_true]
  have hlen13 : old.length = 13 := hlen
  have hpos13 : c.cellNum ≤ 13 := hpos
  simp only [show LEAF_NODE_LEFT_SPLIT_COUNT = 7 from rfl,
    show LEAF_NODE_RIGHT_SPLIT_COUNT = 7 from rfl,
    show LEAF_NODE_MAX_CELLS = 13 from rfl] at *
  have htake7 : (List.take 7
      (old.take c.cellNum ++ splitWrittenCell value :: old.drop c.cellNum) ++
      List.drop 7 old).take 7 =
      List.take 7 (old.take c.cellNum ++ splitWrittenCell value :: old.drop c.cellNum) := by
    apply List.take_left'
    simp only [List.length_take, List.length_append, List.length_cons, List.length_drop]
    omega
  have hdrop7 : (List.drop 7
      (old.take c.cellNum ++ splitWrittenCell value :: old.drop c.cellNum)).take 7 =
      List.drop 7 (old.take c.cellNum ++ splitWrittenCell value :: old.drop c.cellNum) := by
    apply List.take_of_length_le
    simp only [List.length_drop, List.length_append, List.length_take, List.length_cons]
    omega
  rw [htake7, hdrop7]
  rw [create_new_root_eq _ _ (List.take 7
      (old.take c.cellNum ++ splitWrittenCell value :: old.drop c.cellNum))
    (by
      simp only [Table.getPage]
      rw [getD_append_left _ _ _ _ (by simp only [List.length_set]; omega),
        getD_set_self' _ _ _ _ (by omega)])]
  rw [List.set_append, if_pos (by simp only [List.length_set]; omega), List.set_set]
  simp [List.append_assoc, List.length_append, List.length_set]

/-! ## Inserting and selecting on a single-leaf table -/

theorem map_key_cellOfRow (rows : List Row) :
    (rows.map cellOfRow).map LeafCell.key = rows.map Row.id := by
  rw [List.map_map]
  rfl

/-- When the lower bound of an absent key lands inside the array, the key
there is strictly greater than the searched key. -/
theorem lowerBound_getD_gt (keys : List Nat) (k : Nat)
    (hsor : keys.Sorted (· < ·)) (hmem : k ∉ keys)
    (h : lowerBoundPos keys k < keys.length) :
    k < keys.getD (lowerBoundPos keys k) 0 := by
  have hdrop := drop_lowerBound_eq_dropWhile keys k
  have hget : keys.getD (lowerBoundPos keys k) 0 = (keys.drop (lowerBoundPos keys k)).getD 0 0 := by
    rw [List.getD_eq_getElem _ _ h, List.getD_eq_getElem _ _ (by simp only [List.length_drop]; omega)]
    rw [List.getElem_drop]
    congr 1
  rw [hget, hdrop]
  cases hdw : keys.dropWhile fun x => decide (x < k) with
  | nil =>
    rw [hdw] at hdrop
    have : keys.length ≤ lowerBoundPos keys k := by
      have h2 : (keys.drop (lowerBoundPos keys k)).length = 0 := by rw [hdrop]; rfl
      simp only [List.length_drop] at h2
      omega
    omega
  | cons b t =>
    have hb : k < b := sorted_dropWhile_gt keys k hsor hmem b (by rw [hdw]; exact List.mem_cons_self b t)
    simpa using hb

/-- One execute_insert on a table whose only page is the root leaf holding
the sorted cells of rows: the call succeeds and the new row's cell lands at
its lower-bound position. -/
theorem execute_insert_single_leaf (rows : List Row) (r : Row)
    (hsor : (rows.map Row.id).Sorted (· < ·))
    (hmem : r.id ∉ rows.map Row.id)
    (hlen : rows.length < LEAF_NODE_MAX_CELLS) :
    execute_insert ⟨[Node.leaf true (rows.map cellOfRow)]⟩ r =
      some (.success, ⟨[Node.leaf true
        ((rows.take (lowerBoundPos (rows.map Row.id) r.id)).map cellOfRow ++
          cellOfRow r :: (rows.drop (lowerBoundPos (rows.map Row.id) r.id)).map cellOfRow)]⟩) := by
  set keys := rows.map Row.id with hkeys
  set p := lowerBoundPos keys r.id with hp
  have hplen : p ≤ keys.length := lowerBoundPos_le_length keys r.id
  have hklen : keys.length = rows.length := by simp [hkeys]
  have hfind : leafFindLoop ((Node.leaf true (rows.map cellOfRow)).leafKeys) r.id 0
      ((Node.leaf true (rows.map cellOfRow)).rawNumCells) = p := by
    have hlk : (Node.leaf true (rows.map cellOfRow)).leafKeys = keys := by
      simp only [Node.leafKeys, Node.leafCells]
      rw [map_key_cellOfRow]
    have hrn : (Node.leaf true (rows.map cellOfRow)).rawNumCells = keys.length := by
      simp only [Node.rawNumCells, List.length_map, hklen]
    rw [hlk, hrn]
    exact leafFindLoop_eq_lowerBound keys r.id hsor keys.length 0 keys.length
      (by omega) (by omega) (by omega)
      (fun i hi => by omega)
      (fun i h1 h2 => by omega)
  have hkeyat : p < rows.length →
      Node.rawLeafKey (Node.leaf true (rows.map cellOfRow)) p = keys.getD p 0 := by
    intro hplt
    simp only [Node.rawLeafKey]
    rw [List.getD_eq_getElem _ _ (by simp only [List.length_map]; omega),
      List.getD_eq_getElem _ _ (by simp only [hkeys, List.length_map]; omega)]
    simp only [List.getElem_map, hkeys]
    rfl
  have hcond : ¬(p < (Node.leaf true (rows.map cellOfRow)).rawNumCells ∧
      Node.rawLeafKey (Node.leaf true (rows.map cellOfRow)) p = r.id) := by
    rintro ⟨h1, h2⟩
    simp only [Node.rawNumCells, List.length_map] at h1
    rw [hkeyat h1] at h2
    have := lowerBound_getD_gt keys r.id hsor hmem (by omega)
    rw [← hp] at this
    omega
  simp only [execute_insert, Table.getPage, Table.rootPageNum, List.getD_cons_zero,
    table_find, Node.nodeType, leaf_node_find, hfind]
  rw [if_neg hcond]
  simp only [leaf_node_insert, Table.getPage, Table.rootPageNum, List.getD_cons_zero,
    Node.rawNumCells, List.length_map]
  rw [if_neg (by
    have h13 : LEAF_NODE_MAX_CELLS = 13 := rfl
    omega)]
  simp only [Node.leafCells, Node.isRootFlag, Table.setPage, List.set, Option.map_some]
  rw [← List.map_take, ← List.map_drop]
  rfl

/-- Running a sequence of inserts that fits in the root leaf keeps the
table a single sorted leaf holding exactly the rows inserted. -/
theorem runInserts_single_leaf (S : List Row) : ∀ (rows : List Row),
    (∀ r ∈ rows, r.WF) → (∀ r ∈ S, r.WF) →
    ((rows ++ S).map Row.id).Nodup →
    ((rows.map Row.id).Sorted (· < ·)) →
    rows.length + S.length ≤ LEAF_NODE_MAX_CELLS →
    ∃ rows2 : List Row,
      runInserts ⟨[Node.leaf true (rows.map cellOfRow)]⟩ S =
        some ⟨[Node.leaf true (rows2.map cellOfRow)]⟩ ∧
      rows2.Perm (rows ++ S) ∧ ((rows2.map Row.id).Sorted (· < ·)) ∧
      (∀ r ∈ rows2, r.WF) := by
  induction S with
  | nil =>
    intro rows hwfr _ hnd hsor hlen
    exact ⟨rows, by simp [runInserts], by simp, hsor, hwfr⟩
  | cons r S ih =>
    intro rows hwfr hwfS hnd hsor hlen
    have hmem : r.id ∉ rows.map Row.id := by
      intro hin
      have : ¬ ((rows ++ r :: S).map Row.id).Nodup := by
        simp only [List.map_append, List.map_cons]
        intro hn
        have h1 := (List.nodup_append.mp hn).2.2
        exact h1 hin (List.mem_cons_self _ _)
      exact this hnd
    have hstep := execute_insert_single_leaf rows r hsor hmem (by
      simp only [List.length_cons] at hlen
      omega)
    set p := lowerBoundPos (rows.map Row.id) r.id with hpdef
    set rows1 := rows.take p ++ r :: rows.drop p with hrows1
    have hcells : (rows.take p).map cellOfRow ++ cellOfRow r :: (rows.drop p).map cellOfRow
        = rows1.map cellOfRow := by
      simp [hrows1, List.map_append]
    have hperm1 : rows1.Perm (r :: rows) := by
      have h := @List.perm_middle Row r (rows.take p) (rows.drop p)
      simpa [List.take_append_drop] using h
    have hperm2 : (rows1 ++ S).Perm (rows ++ r :: S) := by
      have h1 : (rows1 ++ S).Perm ((r :: rows) ++ S) := hperm1.append_right S
      have h2 : ((r :: rows) ++ S) = r :: (rows ++ S) := rfl
      have h3 : (r :: (rows ++ S)).Perm (rows ++ r :: S) := List.perm_middle.symm
      exact h1.trans (h2 ▸ h3)
    have hids : rows1.map Row.id = (rows.map Row.id).take p ++
        r.id :: (rows.map Row.id).drop p := by
      simp [hrows1, List.map_append, List.map_take, List.map_drop]
    have hsor1 : (rows1.map Row.id).Sorted (· < ·) := by
      rw [hids, hpdef]
      exact sorted_insert_lowerBound _ _ hsor hmem
    have hnd1 : ((rows1 ++ S).map Row.id).Nodup :=
      ((hperm2.map Row.id).nodup_iff).mpr hnd
    have hwfr1 : ∀ x ∈ rows1, x.WF := by
      intro x hx
      rcases List.mem_cons.mp ((hperm1.mem_iff).mp hx) with rfl | hxr
      · exact hwfS x (List.mem_cons_self _ _)
      · exact hwfr x hxr
    have hlen1 : rows1.length + S.length ≤ LEAF_NODE_MAX_CELLS := by
      have hple : p ≤ rows.length := by
        have := lowerBoundPos_le_length (rows.map Row.id) r.id
        simpa [List.length_map] using this
      have : rows1.length = rows.length + 1 := by
        simp only [hrows1, List.length_append, List.length_take, List.length_cons,
          List.length_drop]
        omega
      simp only [List.length_cons] at hlen
      omega
    obtain ⟨rows2, hrun, hperm, hsor2, hwf2⟩ :=
      ih rows1 hwfr1 (fun x hx => hwfS x (List.mem_cons_of_mem r hx)) hnd1 hsor1 hlen1
    refine ⟨rows2, ?_, ?_, hsor2, hwf2⟩
    · simp only [runInserts, hstep]
      rw [hcells]
      exact hrun
    · exact hperm.trans hperm2

/-- The select loop on a single-leaf table emits the rows from the cursor
position to the end of the leaf. -/
theorem selectLoop_single_leaf (rows : List Row) (hwf : ∀ r ∈ rows, r.WF) :
    ∀ (fuel j : Nat), rows.length - j < fuel →
    selectLoop fuel ⟨[Node.leaf true (rows.map cellOfRow)]⟩
      ⟨0, j, decide (rows.length ≤ j)⟩ = some (rows.drop j) := by
  intro fuel
  induction fuel with
  | zero =>
    intro j h
    omega
  | succ m ih =>
    intro j hj
    by_cases hend : rows.length ≤ j
    · have hdrop : rows.drop j = [] := List.drop_eq_nil_of_le hend
      simp [selectLoop, hend, hdrop]
    · have hlt : j < rows.length := by omega
      have hcv : cursor_value ⟨[Node.leaf true (rows.map cellOfRow)]⟩
          ⟨0, j, decide (rows.length ≤ j)⟩ = some (rowBytes (rows[j])) := by
        simp only [cursor_value, Table.getPage, List.getD_cons_zero, Node.leafCells]
        rw [List.getD_eq_getElem _ _ (by simp only [List.length_map]; omega)]
        simp only [List.getElem_map]
        rfl
      have hadv : cursor_advance ⟨[Node.leaf true (rows.map cellOfRow)]⟩
          ⟨0, j, decide (rows.length ≤ j)⟩ = ⟨0, j + 1, decide (rows.length ≤ j + 1)⟩ := by
        simp only [cursor_advance, Table.getPage, List.getD_cons_zero, Node.rawNumCells,
          List.length_map]
        by_cases hj1 : rows.length ≤ j + 1
        · simp [hj1]
        · simp [hj1]
          omega
      simp only [selectLoop]
      rw [if_neg (by simp [hend]), hcv, hadv, ih (j + 1) (by omega)]
      simp only [Option.map]
      rw [deserialize_rowBytes (rows[j]) (hwf _ (List.getElem_mem hlt)),
        ← List.drop_eq_getElem_cons hlt]

/-- execute_select on a single-leaf table emits exactly the leaf's rows. -/
theorem execute_select_single_leaf (rows : List Row) (hwf : ∀ r ∈ rows, r.WF)
    (hsor : (rows.map Row.id).Sorted (· < ·)) :
    execute_select ⟨[Node.leaf true (rows.map cellOfRow)]⟩ = some rows := by
  have h0 : lowerBoundPos (rows.map Row.id) 0 = 0 := by
    unfold lowerBoundPos
    cases h : rows.map Row.id with
    | nil => rfl
    | cons a l =>
      rw [List.takeWhile_cons]
      simp
  have hfind : leafFindLoop ((Node.leaf true (rows.map cellOfRow)).leafKeys) 0 0
      ((Node.leaf true (rows.map cellOfRow)).rawNumCells) = 0 := by
    have hlk : (Node.leaf true (rows.map cellOfRow)).leafKeys = rows.map Row.id := by
      simp only [Node.leafKeys, Node.leafCells]
      rw [map_key_cellOfRow]
    have hrn : (Node.leaf true (rows.map cellOfRow)).rawNumCells = rows.length := by
      simp only [Node.rawNumCells, List.length_map]
    rw [hlk, hrn]
    have hloop := leafFindLoop_eq_lowerBound (rows.map Row.id) 0 hsor
      (rows.map Row.id).length 0 rows.length (by simp) (by omega) (by simp)
      (fun i hi => by omega)
      (fun i h1 h2 => by simp only [List.length_map] at h2; omega)
    rw [h0] at hloop
    exact hloop
  have hbeq : ((rows.length == 0) : Bool) = decide (rows.length ≤ 0) := by
    cases rows <;> simp
  have hfind2 : leafFindLoop ((Node.leaf true (rows.map cellOfRow)).leafKeys) 0 0
      rows.length = 0 := by
    have := hfind
    simpa only [Node.rawNumCells, List.length_map] using this
  simp only [execute_select, table_start, Table.getPage, Table.rootPageNum,
    List.getD_cons_zero, table_find, Node.nodeType, leaf_node_find, Node.rawNumCells,
    List.length_map, Option.map]
  rw [hfind2, hbeq]
  have hsel := selectLoop_single_leaf rows hwf (rows.length + 1) 0 (by omega)
  simpa using hsel

/-- Round trip for workloads that fit in one leaf: inserting at most
LEAF_NODE_MAX_CELLS well-formed rows with distinct ids into a fresh
database, closing, reopening and selecting emits exactly the inserted
rows, sorted in strictly ascending order of id. -/
theorem persistence_roundtrip_le_max (S : List Row)
    (hlen : S.length ≤ LEAF_NODE_MAX_CELLS)
    (hwf : ∀ r ∈ S, r.WF)
    (hnodup : (S.map Row.id).Nodup) :
    ∃ t out, runInserts (db_open []) S = some t ∧
      execute_select (db_open (db_close t)) = some out ∧
      out.Perm S ∧ (out.map Row.id).Sorted (· < ·) := by
  have hopen : db_open [] = ⟨[Node.leaf true (([] : List Row).map cellOfRow)]⟩ := rfl
  obtain ⟨rows2, hrun, hperm, hsor2, hwf2⟩ := runInserts_single_leaf S []
    (by simp) hwf (by simpa using hnodup) (by simp) (by simpa using hlen)
  refine ⟨_, rows2, by rw [hopen]; exact hrun, ?_, by simpa using hperm, hsor2⟩
  have hclose : db_open (db_close ⟨[Node.leaf true (rows2.map cellOfRow)]⟩) =
      ⟨[Node.leaf true (rows2.map cellOfRow)]⟩ := by
    simp [db_open, db_close]
  rw [hclose]
  exact execute_select_single_leaf rows2 hwf2 hsor2

/-! ## The root-identity invariant -/

theorem setRootFlag_isRootFlag (n : Node) (b : Bool) :
    (n.setRootFlag b).isRootFlag = b := by
  cases n <;> rfl

/-- Rewriting a page in place with a node carrying the same root flag
preserves the root-identity invariant. -/
theorem rootFlagInv_setPage (t : Table) (n : Nat) (nd : Node)
    (hinv : rootFlagInv t) (hflag : nd.isRootFlag = (t.getPage n).isRootFlag) :
    rootFlagInv (t.setPage n nd) := by
  obtain ⟨hne, hall⟩ := hinv
  by_cases hn : n < t.pages.length
  · refine ⟨?_, ?_⟩
    · intro h
      apply hne
      have h0 : (t.setPage n nd).pages.length = 0 := by rw [h]; rfl
      simp only [Table.setPage, List.length_set] at h0
      exact List.eq_nil_of_length_eq_zero h0
    · intro i hi
      simp only [Table.setPage, List.length_set] at hi
      by_cases hin : i = n
      · subst hin
        have hgd : (t.setPage i nd).getPage i = nd := by
          simp only [Table.setPage, Table.getPage]
          exact getD_set_self' _ _ _ _ hn
        rw [hgd, hflag]
        exact hall i hi
      · have hgd : (t.setPage n nd).getPage i = t.getPage i := by
          simp only [Table.setPage, Table.getPage]
          exact getD_set_ne' _ _ _ _ _ (fun h => hin h.symm)
        rw [hgd]
        exact hall i hi
  · have hset : t.pages.set n nd = t.pages := List.set_eq_of_length_le (by omega)
    have : t.setPage n nd = t := by
      simp only [Table.setPage, hset]
    rw [this]
    exact ⟨hne, hall⟩


/-- The page list produced by a root split and promotion — page 0
rewritten (twice) ending with a root-flagged node, a non-root right leaf
and a non-root left copy appended — satisfies the invariant again. -/
theorem rootFlagInv_afterSplitShape (t : Table) (old2 new2 NR LC : Node)
    (hinv : rootFlagInv t)
    (hNR : NR.isRootFlag = true) (hLC : LC.isRootFlag = false)
    (hnew2 : new2.isRootFlag = false) :
    rootFlagInv ⟨((t.pages.set 0 old2 ++ [new2]).set 0 NR) ++ [LC]⟩ := by
  obtain ⟨hne, hall⟩ := hinv
  have hlen1 : 1 ≤ t.pages.length := by
    cases h : t.pages with
    | nil => exact absurd h hne
    | cons a l => simp [h]
  have hBlen : ((t.pages.set 0 old2 ++ [new2]).set 0 NR).length = t.pages.length + 1 := by
    simp [List.length_set, List.length_append]
  refine ⟨by simp, ?_⟩
  intro i hi
  simp only [Table.getPage, List.length_append, hBlen, List.length_cons,
    List.length_nil] at hi ⊢
  by_cases hi1 : i < t.pages.length + 1
  · rw [getD_append_left _ _ _ _ (by omega)]
    by_cases hi0 : i = 0
    · subst hi0
      rw [getD_set_self' _ _ _ _ (by
        simp only [List.length_append, List.length_set, List.length_cons, List.length_nil]
        omega)]
      simp [hNR]
    · rw [getD_set_ne' _ _ _ _ _ (fun h => hi0 h.symm)]
      by_cases hil : i < t.pages.length
      · rw [getD_append_left _ _ _ _ (by simp only [List.length_set]; omega),
          getD_set_ne' _ _ _ _ _ (fun h => hi0 h.symm)]
        have := hall i hil
        simpa [Table.getPage] using this
      · have hieq : i = t.pages.length := by omega
        subst hieq
        have h1 : (t.pages.set 0 old2 ++ [new2]).getD t.pages.length emptyLeafNode
            = [new2].getD 0 emptyLeafNode := by
          have h2 := getD_append_len (t.pages.set 0 old2) [new2] new2 emptyLeafNode rfl
          rw [List.length_set] at h2
          exact h2
        rw [h1]
        simp only [List.getD_cons_zero, hnew2]
        simp [hi0]
  · have hieq : i = t.pages.length + 1 := by omega
    subst hieq
    have h1 : (((t.pages.set 0 old2 ++ [new2]).set 0 NR) ++ [LC]).getD
        (t.pages.length + 1) emptyLeafNode = [LC].getD 0 emptyLeafNode := by
      have h2 := getD_append_len ((t.pages.set 0 old2 ++ [new2]).set 0 NR) [LC]
        LC emptyLeafNode rfl
      rw [hBlen] at h2
      exact h2
    rw [h1]
    simp only [List.getD_cons_zero, hLC]
    simp

/-- Every table reachable from a fresh database through completed
operations keeps is_root set on page 0 and clear on every other page. -/
theorem rootFlagInv_reachable (t : Table) (h : Reachable t) : rootFlagInv t := by
  induction h with
  | openEmpty =>
    refine ⟨by simp [db_open], ?_⟩
    intro i hi
    simp [db_open] at hi
    have hi0 : i = 0 := by omega
    subst hi0
    simp [db_open, Table.getPage, Node.isRootFlag]
  | reopen t ht ih =>
    obtain ⟨hne, hall⟩ := ih
    have hlen : t.pages.length ≠ 0 := fun h0 => hne (List.eq_nil_of_length_eq_zero h0)
    have : db_open (db_close t) = t := by
      simp only [db_open, db_close, if_neg hlen]
    rw [this]
    exact ⟨hne, hall⟩
  | insertStep t r res t2 ht heq ih =>
    simp only [execute_insert] at heq
    cases hf : table_find t r.id with
    | none =>
      rw [hf] at heq
      exact absurd heq (by simp)
    | some cursor =>
      rw [hf] at heq
      replace heq : (if cursor.cellNum < (t.getPage t.rootPageNum).rawNumCells ∧
          (t.getPage t.rootPageNum).rawLeafKey cursor.cellNum = r.id then
          some (ExecuteResult.duplicateKey, t)
        else Option.map (fun t4 => (ExecuteResult.success, t4))
          (leaf_node_insert t cursor r.id r)) = some (res, t2) := heq
      by_cases hdup : cursor.cellNum < (t.getPage t.rootPageNum).rawNumCells ∧
          (t.getPage t.rootPageNum).rawLeafKey cursor.cellNum = r.id
      · rw [if_pos hdup] at heq
        simp only [Option.some.injEq, Prod.mk.injEq] at heq
        obtain ⟨-, h2⟩ := heq
        rw [← h2]
        exact ih
      · rw [if_neg hdup] at heq
        cases hins : leaf_node_insert t cursor r.id r with
        | none =>
          rw [hins] at heq
          exact absurd heq (by simp)
        | some t3 =>
          rw [hins] at heq
          simp only [Option.map, Option.some.injEq, Prod.mk.injEq] at heq
          obtain ⟨-, h2⟩ := heq
          rw [← h2]
          simp only [leaf_node_insert] at hins
          by_cases hfull : LEAF_NODE_MAX_CELLS ≤ (t.getPage cursor.pageNum).rawNumCells
          · rw [if_pos hfull] at hins
            simp only [leaf_node_split_and_insert] at hins
            by_cases hroot : (t.getPage cursor.pageNum).isRootFlag = true
            · rw [if_pos hroot] at hins
              have hcp : cursor.pageNum < t.pages.length := by
                by_contra hcp
                have hdefault : t.getPage cursor.pageNum = emptyLeafNode := by
                  simp only [Table.getPage]
                  exact List.getD_eq_default _ _ (by omega)
                rw [hdefault] at hroot
                exact absurd hroot (by simp [emptyLeafNode, Node.isRootFlag])
              have hcp0 : cursor.pageNum = 0 := (ih.2 cursor.pageNum hcp).mp hroot
              rw [hcp0] at hins
              simp only [create_new_root, Table.rootPageNum, Table.unusedPageNum,
                Option.some.injEq] at hins
              rw [← hins]
              exact rootFlagInv_afterSplitShape t _ _ _ _ ih rfl
                (setRootFlag_isRootFlag _ _) rfl
            · rw [if_neg hroot] at hins
              exact absurd hins (by simp)
          · rw [if_neg hfull] at hins
            simp only [Option.some.injEq] at hins
            rw [← hins]
            exact rootFlagInv_setPage t cursor.pageNum _ ih rfl

/-! ## Claim theorems -/

theorem getD_append_two {α : Type} (A : List α) (x y d : α) :
    ((A ++ [x, y]).getD A.length d = x) ∧
    ((A ++ [x, y]).getD (A.length + 1) d = y) := by
  constructor
  · have h := getD_append_len A [x, y] x d rfl
    simpa using h
  · have hassoc : A ++ [x, y] = (A ++ [x]) ++ [y] := by simp
    rw [hassoc]
    have h := getD_append_len (A ++ [x]) [y] y d rfl
    simp only [List.length_append, List.length_cons, List.length_nil] at h
    simpa using h

/-- C3: when leaf_node_split_and_insert runs on the root leaf holding
LEAF_NODE_MAX_CELLS strictly-sorted cells, with a new key not already
present and the cursor at its lower-bound position, the keys across the
resulting left leaf and right leaf are exactly the pre-split keys plus
the inserted key — nothing lost, nothing duplicated — and each of the
two leaves is sorted strictly ascending. -/
theorem C3_split_preserves_keys (t : Table) (c : Cursor) (k : Nat) (value : Row)
    (old : List LeafCell)
    (hpage : c.pageNum = 0)
    (hnode : t.getPage c.pageNum = .leaf true old)
    (hlen : old.length = LEAF_NODE_MAX_CELLS)
    (hsor : (old.map LeafCell.key).Sorted (· < ·))
    (hk : k ∉ old.map LeafCell.key)
    (hkey : value.id = k) (hk32 : k < 4294967296)
    (hpos : c.cellNum = lowerBoundPos (old.map LeafCell.key) k) :
    ∃ t2, leaf_node_split_and_insert t c k value = some t2 ∧
      (((t2.getPage (t.unusedPageNum + 1)).leafKeys ++
        (t2.getPage t.unusedPageNum).leafKeys).Perm (k :: old.map LeafCell.key)) ∧
      ((t2.getPage (t.unusedPageNum + 1)).leafKeys ++
        (t2.getPage t.unusedPageNum).leafKeys).Nodup ∧
      (t2.getPage (t.unusedPageNum + 1)).leafKeys.Sorted (· < ·) ∧
      (t2.getPage t.unusedPageNum).leafKeys.Sorted (· < ·) := by
  have hposle : c.cellNum ≤ LEAF_NODE_MAX_CELLS := by
    rw [hpos]
    have h := lowerBoundPos_le_length (old.map LeafCell.key) k
    simpa [List.length_map, hlen] using h
  have hres := split_root_result t c k value old hpage hnode hlen hposle
  refine ⟨_, hres, ?_⟩
  set ins := old.take c.cellNum ++ splitWrittenCell value :: old.drop c.cellNum with hins
  set A := t.pages.set 0
      (Node.internal true [⟨t.pages.length + 1, get_node_max_key (.leaf false
        (ins.take LEAF_NODE_LEFT_SPLIT_COUNT))⟩] t.pages.length) with hA
  have hAlen : A.length = t.pages.length := by
    simp [hA, List.length_set]
  have hgd := getD_append_two A
    (Node.leaf false (ins.drop LEAF_NODE_LEFT_SPLIT_COUNT))
    (Node.leaf false (ins.take LEAF_NODE_LEFT_SPLIT_COUNT)) emptyLeafNode
  have hR : (Table.mk (A ++ [Node.leaf false (ins.drop LEAF_NODE_LEFT_SPLIT_COUNT),
      Node.leaf false (ins.take LEAF_NODE_LEFT_SPLIT_COUNT)])).getPage t.pages.length
      = Node.leaf false (ins.drop LEAF_NODE_LEFT_SPLIT_COUNT) := by
    simp only [Table.getPage]
    rw [← hAlen]
    exact hgd.1
  have hL : (Table.mk (A ++ [Node.leaf false (ins.drop LEAF_NODE_LEFT_SPLIT_COUNT),
      Node.leaf false (ins.take LEAF_NODE_LEFT_SPLIT_COUNT)])).getPage (t.pages.length + 1)
      = Node.leaf false (ins.take LEAF_NODE_LEFT_SPLIT_COUNT) := by
    simp only [Table.getPage]
    rw [← hAlen]
    exact hgd.2
  simp only [Table.unusedPageNum, hR, hL, Node.leafKeys, Node.leafCells]
  have hkk : (splitWrittenCell value).key = k := by
    simp only [splitWrittenCell]
    rw [fromLE4_toLE4 _ (by omega), hkey]
  have hmm : ins.map LeafCell.key = (old.map LeafCell.key).take c.cellNum ++
      k :: (old.map LeafCell.key).drop c.cellNum := by
    simp only [hins, List.map_append, List.map_cons, List.map_take, List.map_drop, hkk]
  have hmapins : (ins.take LEAF_NODE_LEFT_SPLIT_COUNT).map LeafCell.key ++
      (ins.drop LEAF_NODE_LEFT_SPLIT_COUNT).map LeafCell.key =
      (old.map LeafCell.key).take c.cellNum ++ k ::
        (old.map LeafCell.key).drop c.cellNum := by
    rw [List.map_take, List.map_drop, List.take_append_drop]
    exact hmm
  have hsorted := sorted_insert_lowerBound (old.map LeafCell.key) k hsor hk
  have hperm := insert_lowerBound_perm (old.map LeafCell.key) k
  have hSortedIns : (ins.map LeafCell.key).Sorted (· < ·) := by
    rw [hmm, hpos]
    exact hsorted
  rw [hmapins, hpos]
  refine ⟨hperm, hsorted.nodup, ?_, ?_⟩
  · rw [List.map_take]
    exact List.Pairwise.sublist (List.take_sublist _ _) hSortedIns
  · rw [List.map_drop]
    exact List.Pairwise.sublist (List.drop_sublist _ _) hSortedIns

end TinySql

namespace TinySql
/-- C4: the split constants are derived exactly as the C macros derive
them (LEAF_NODE_MAX_CELLS = 13, RIGHT = (13 + 1 + 1) / 2 = 7,
LEFT = 14 - 7 = 7), and splitting a full root leaf of 13 cells leaves
LEAF_NODE_LEFT_SPLIT_COUNT = 7 cells in the left node and
LEAF_NODE_RIGHT_SPLIT_COUNT = 7 cells in the right node. -/
theorem C4_split_counts :
    LEAF_NODE_MAX_CELLS = 13 ∧
    LEAF_NODE_RIGHT_SPLIT_COUNT = 7 ∧
    LEAF_NODE_LEFT_SPLIT_COUNT = 7 ∧
    PAGE_SIZE = 4096 ∧
    LEAF_NODE_HEADER_SIZE = 14 ∧
    ROW_SIZE = 293 ∧
    LEAF_NODE_CELL_SIZE = LEAF_NODE_KEY_SIZE + ROW_SIZE ∧
    LEAF_NODE_CELL_SIZE = 297 ∧
    LEAF_NODE_MAX_CELLS = (PAGE_SIZE - LEAF_NODE_HEADER_SIZE) / LEAF_NODE_CELL_SIZE ∧
    LEAF_NODE_RIGHT_SPLIT_COUNT = (LEAF_NODE_MAX_CELLS + 1 + 1) / 2 ∧
    LEAF_NODE_LEFT_SPLIT_COUNT = (LEAF_NODE_MAX_CELLS + 1) - LEAF_NODE_RIGHT_SPLIT_COUNT ∧
    ∀ (t : Table) (c : Cursor) (k : Nat) (value : Row) (old : List LeafCell),
      c.pageNum = 0 → t.getPage c.pageNum = .leaf true old →
      old.length = LEAF_NODE_MAX_CELLS → c.cellNum ≤ LEAF_NODE_MAX_CELLS →
      ∃ t2, leaf_node_split_and_insert t c k value = some t2 ∧
        (t2.getPage (t.unusedPageNum + 1)).rawNumCells = LEAF_NODE_LEFT_SPLIT_COUNT ∧
        (t2.getPage t.unusedPageNum).rawNumCells = LEAF_NODE_RIGHT_SPLIT_COUNT := by
  refine ⟨rfl, rfl, rfl, rfl, rfl, rfl, rfl, rfl, rfl, rfl, rfl, ?_⟩
  intro t c k value old hpage hnode hlen hpos
  have hres := split_root_result t c k value old hpage hnode hlen hpos
  set ins := old.take c.cellNum ++ splitWrittenCell value :: old.drop c.cellNum with hins
  have hlen13 : old.length = 13 := hlen
  have hpos13 : c.cellNum ≤ 13 := hpos
  have hinslen : ins.length = 14 := by
    simp only [hins, List.length_append, List.length_take, List.length_cons,
      List.length_drop]
    omega
  set A := t.pages.set 0
      (Node.internal true [⟨t.pages.length + 1, get_node_max_key (.leaf false
        (ins.take LEAF_NODE_LEFT_SPLIT_COUNT))⟩] t.pages.length) with hA
  have hAlen : A.length = t.pages.length := by
    simp [hA, List.length_set]
  have hgd := getD_append_two A
    (Node.leaf false (ins.drop LEAF_NODE_LEFT_SPLIT_COUNT))
    (Node.leaf false (ins.take LEAF_NODE_LEFT_SPLIT_COUNT)) emptyLeafNode
  have hR : (Table.mk (A ++ [Node.leaf false (ins.drop LEAF_NODE_LEFT_SPLIT_COUNT),
      Node.leaf false (ins.take LEAF_NODE_LEFT_SPLIT_COUNT)])).getPage t.pages.length
      = Node.leaf false (ins.drop LEAF_NODE_LEFT_SPLIT_COUNT) := by
    simp only [Table.getPage]
    rw [← hAlen]
    exact hgd.1
  have hL : (Table.mk (A ++ [Node.leaf false (ins.drop LEAF_NODE_LEFT_SPLIT_COUNT),
      Node.leaf false (ins.take LEAF_NODE_LEFT_SPLIT_COUNT)])).getPage (t.pages.length + 1)
      = Node.leaf false (ins.take LEAF_NODE_LEFT_SPLIT_COUNT) := by
    simp only [Table.getPage]
    rw [← hAlen]
    exact hgd.2
  have hLV : LEAF_NODE_LEFT_SPLIT_COUNT = 7 := rfl
  have hRV : LEAF_NODE_RIGHT_SPLIT_COUNT = 7 := rfl
  refine ⟨_, hres, ?_, ?_⟩
  · simp only [Table.unusedPageNum, hL, Node.rawNumCells, List.length_take]
    omega
  · simp only [Table.unusedPageNum, hR, Node.rawNumCells, List.length_drop]
    omega
theorem C4_witness :
    cells13.length = LEAF_NODE_MAX_CELLS ∧
    ∃ t2, leaf_node_split_and_insert table13 ⟨0, 13, false⟩ 999 ⟨999, [], []⟩ = some t2 ∧
      (t2.getPage (table13.unusedPageNum + 1)).rawNumCells = LEAF_NODE_LEFT_SPLIT_COUNT ∧
      (t2.getPage table13.unusedPageNum).rawNumCells = LEAF_NODE_RIGHT_SPLIT_COUNT :=
  ⟨by decide, C4_split_counts.2.2.2.2.2.2.2.2.2.2.2 table13 ⟨0, 13, false⟩ 999
    ⟨999, [], []⟩ cells13 rfl rfl (by decide) (by decide)⟩

theorem C3_witness :
    (cells13.map LeafCell.key).Sorted (· < ·) ∧
    15 ∉ cells13.map LeafCell.key ∧
    1 = lowerBoundPos (cells13.map LeafCell.key) 15 ∧
    ∃ t2, leaf_node_split_and_insert table13 ⟨0, 1, false⟩ 15 ⟨15, [], []⟩ = some t2 ∧
      (((t2.getPage (table13.unusedPageNum + 1)).leafKeys ++
        (t2.getPage table13.unusedPageNum).leafKeys).Perm
          (15 :: cells13.map LeafCell.key)) ∧
      ((t2.getPage (table13.unusedPageNum + 1)).leafKeys ++
        (t2.getPage table13.unusedPageNum).leafKeys).Nodup ∧
      (t2.getPage (table13.unusedPageNum + 1)).leafKeys.Sorted (· < ·) ∧
      (t2.getPage table13.unusedPageNum).leafKeys.Sorted (· < ·) :=
  ⟨by decide, by decide, by decide,
    C3_split_preserves_keys table13 ⟨0, 1, false⟩ 15 ⟨15, [], []⟩ cells13 rfl rfl
      (by decide) (by decide) (by decide) rfl (by decide) (by decide)⟩

/-- C5: internal_node_find recurses on the same page number instead of
the child it computed, so on a table whose root child is itself internal
the search makes no progress: the C call never returns, and in the
embedding internal_node_find yields none at every fuel, hence table_find
yields none. -/
theorem C5_internal_find_no_progress :
    (tableH3.getPage 0).nodeType = CNodeType.internalType ∧
    (tableH3.getPage ((tableH3.getPage 0).internalChild
      (internalFindLoop (tableH3.getPage 0).internalKeys 5 0
        (tableH3.getPage 0).numKeys))).nodeType = CNodeType.internalType ∧
    (∀ fuel : Nat, internal_node_find fuel tableH3 0 5 = none) ∧
    table_find tableH3 5 = none := by
  have hall : ∀ fuel : Nat, internal_node_find fuel tableH3 0 5 = none := by
    intro fuel
    induction fuel with
    | zero => rfl
    | succ m ih => exact ih
  exact ⟨rfl, rfl, hall, hall TABLE_MAX_PAGES⟩

/-- C6: get_page's guard is page_num > TABLE_MAX_PAGES, so at
page_num = TABLE_MAX_PAGES = 100 it does not abort and accesses the
out-of-bounds slot pages[100] of the 100-entry array; it aborts exactly
for page numbers strictly greater than TABLE_MAX_PAGES. -/
theorem C6_get_page_bound :
    TABLE_MAX_PAGES = 100 ∧
    get_page_fatal TABLE_MAX_PAGES = false ∧
    get_page_slot_accessed TABLE_MAX_PAGES = some TABLE_MAX_PAGES ∧
    get_page_fatal (TABLE_MAX_PAGES + 1) = true ∧
    (∀ n : Nat, get_page_fatal n = true ↔ TABLE_MAX_PAGES < n) := by
  refine ⟨rfl, rfl, rfl, rfl, ?_⟩
  intro n
  simp [get_page_fatal]

/-- C10: opening a fresh (empty) database produces a single empty leaf
marked as root; table_start returns a cursor at page 0, cell 0 with
end_of_table true, and execute_select returns the empty row list. -/
theorem C10_fresh_database :
    db_open [] = ⟨[Node.leaf true []]⟩ ∧
    table_start (db_open []) = some ⟨0, 0, true⟩ ∧
    execute_select (db_open []) = some [] := by
  refine ⟨rfl, by decide, by decide⟩

set_option maxRecDepth 8000 in
/-- C2: execute_insert reads num_cells and the probe key from the ROOT
page even when the root is internal after a split, so the duplicate-key
check is bypassed: after inserting ids 1..14 (which splits the root),
inserting id 2 again reports success and leaves two cells with key 2 in
the left leaf. -/
theorem C2_duplicate_after_split :
    runInserts (db_open []) rows14 = some table14 ∧
    (table14.getPage 2).leafKeys = [1, 2, 3, 4, 5, 6, 7] ∧
    (execute_insert table14 (mkRow 2)).map
        (fun p => (p.1, (p.2.getPage 2).leafKeys)) =
      some (ExecuteResult.success, [1, 2, 2, 3, 4, 5, 6, 7]) := by
  refine ⟨by decide, by decide, by decide⟩

/-- C1: the persistence round trip of the spec, restricted to at most
LEAF_NODE_MAX_CELLS = 13 rows (single-leaf regime): inserting any
sequence of well-formed rows with distinct ids, closing the database and
reopening it, select returns exactly the inserted rows sorted by id. -/
theorem C1_roundtrip_le_max_cells (S : List Row)
    (hlen : S.length ≤ LEAF_NODE_MAX_CELLS)
    (hwf : ∀ r ∈ S, r.WF)
    (hnodup : (S.map Row.id).Nodup) :
    ∃ t out, runInserts (db_open []) S = some t ∧
      execute_select (db_open (db_close t)) = some out ∧
      out.Perm S ∧ (out.map Row.id).Sorted (· < ·) :=
  persistence_roundtrip_le_max S hlen hwf hnodup

set_option maxRecDepth 8000 in
theorem C1_witness :
    ([mkRow 2, mkRow 1].length ≤ LEAF_NODE_MAX_CELLS) ∧
    ∃ t out, runInserts (db_open []) [mkRow 2, mkRow 1] = some t ∧
      execute_select (db_open (db_close t)) = some out ∧
      out.Perm [mkRow 2, mkRow 1] ∧ (out.map Row.id).Sorted (· < ·) :=
  ⟨by decide, C1_roundtrip_le_max_cells [mkRow 2, mkRow 1] (by decide) (by decide)
    (by decide)⟩

set_option maxRecDepth 8000 in
theorem C1_counterexample :
    rows14.length = LEAF_NODE_MAX_CELLS + 1 ∧
    (rows14.map Row.id).Nodup ∧
    (∀ r ∈ rows14, r.WF) ∧
    ((runInserts (db_open []) rows14).bind fun t =>
      execute_select (db_open (db_close t))).map (List.map Row.id) =
        some [1, 2, 3, 4, 5, 6, 7] ∧
    ∀ out : List Row, ((runInserts (db_open []) rows14).bind fun t =>
      execute_select (db_open (db_close t))) = some out → ¬ out.Perm rows14 := by
  refine ⟨by decide, by decide, by decide, by decide, ?_⟩
  intro out hout hperm
  have hlen7 : (((runInserts (db_open []) rows14).bind fun t =>
      execute_select (db_open (db_close t))).map List.length) = some 7 := by decide
  rw [hout] at hlen7
  simp only [Option.map, Option.some.injEq] at hlen7
  have h14 : rows14.length = 14 := by decide
  have hpl := hperm.length_eq
  omega

theorem reachable_runInserts (S : List Row) : ∀ t t2 : Table,
    Reachable t → runInserts t S = some t2 → Reachable t2 := by
  induction S with
  | nil =>
    intro t t2 ht h
    simp only [runInserts, Option.some.injEq] at h
    rw [← h]
    exact ht
  | cons r S ih =>
    intro t t2 ht h
    simp only [runInserts] at h
    cases he : execute_insert t r with
    | none =>
      rw [he] at h
      exact absurd h (by simp)
    | some p =>
      rw [he] at h
      exact ih p.2 t2 (Reachable.insertStep t r p.1 p.2 ht he) h

/-- C7: in every reachable table state the root is exactly page 0: the
is_root flag is set on page 0 and clear on every other allocated page,
across empty-open, inserts, and root splits. -/
theorem C7_root_identity (t : Table) (h : Reachable t) : rootFlagInv t :=
  rootFlagInv_reachable t h

set_option maxRecDepth 8000 in
theorem C7_witness : rootFlagInv table14 :=
  C7_root_identity table14 (reachable_runInserts rows14 (db_open []) table14
    Reachable.openEmpty (by decide))
/-- C8: initialize_leaf_node sets the node type byte to NODE_LEAF,
clears the is_root byte, zeroes the num_cells field, and leaves the
buffer length unchanged; the next_leaf bytes at offset 10..13 are NOT
written — they keep whatever the buffer held before (the C function
never stores to LEAF_NODE_NEXT_LEAF_OFFSET). -/
theorem C8_initialize_leaf_node (node : List Nat)
    (h : node.length = PAGE_SIZE) :
    get_node_type_byte (initialize_leaf_node node) = NODE_LEAF ∧
    is_node_root_byte (initialize_leaf_node node) = false ∧
    leaf_load_num_cells (initialize_leaf_node node) = 0 ∧
    segRead (initialize_leaf_node node) LEAF_NODE_NEXT_LEAF_OFFSET
        LEAF_NODE_NEXT_LEAF_SIZE =
      segRead node LEAF_NODE_NEXT_LEAF_OFFSET LEAF_NODE_NEXT_LEAF_SIZE ∧
    (initialize_leaf_node node).length = node.length := by
  have hlen : node.length = 4096 := h
  have hl1 : (memcpyAt node 0 [1]).length = node.length :=
    length_memcpyAt _ _ _ (by simp; omega)
  have hl2 : (memcpyAt (memcpyAt node 0 [1]) 1 [0]).length = node.length := by
    rw [length_memcpyAt _ _ _ (by rw [hl1]; simp; omega), hl1]
  have hl3 : (initialize_leaf_node node).length = node.length := by
    show (memcpyAt (memcpyAt (memcpyAt node 0 [1]) 1 [0]) 6 (toLE4 0)).length
      = node.length
    rw [length_memcpyAt _ _ _ (by rw [hl2]; simp [toLE4]; omega), hl2]
  refine ⟨?_, ?_, ?_, ?_, hl3⟩
  · show loadByte (segRead (memcpyAt (memcpyAt (memcpyAt node 0 [1]) 1 [0])
      6 (toLE4 0)) 0 1) = 1
    have hs := segRead_memcpyAt_self node [1] 0 (by omega)
    simp only [List.length_singleton] at hs
    rw [segRead_memcpyAt_before _ _ _ _ _ (by omega) (by rw [hl2]; omega),
      segRead_memcpyAt_before _ _ _ _ _ (by omega) (by rw [hl1]; omega), hs]
    rfl
  · show (loadByte (segRead (memcpyAt (memcpyAt (memcpyAt node 0 [1]) 1 [0])
      6 (toLE4 0)) 1 1) != 0) = false
    have hs := segRead_memcpyAt_self (memcpyAt node 0 [1]) [0] 1
      (by rw [hl1]; omega)
    simp only [List.length_singleton] at hs
    rw [segRead_memcpyAt_before _ _ _ _ _ (by omega) (by rw [hl2]; omega), hs]
    rfl
  · show fromLE4 (segRead (memcpyAt (memcpyAt (memcpyAt node 0 [1]) 1 [0])
      6 (toLE4 0)) 6 4) = 0
    have hs := segRead_memcpyAt_self (memcpyAt (memcpyAt node 0 [1]) 1 [0])
      (toLE4 0) 6 (by rw [hl2]; omega)
    simp only [show (toLE4 0).length = 4 from rfl] at hs
    rw [hs]
    rfl
  · show segRead (memcpyAt (memcpyAt (memcpyAt node 0 [1]) 1 [0])
      6 (toLE4 0)) 10 4 = segRead node 10 4
    rw [segRead_memcpyAt_after _ _ _ _ _ (by simp [toLE4]) (by rw [hl2]; omega),
      segRead_memcpyAt_after _ _ _ _ _ (by simp) (by rw [hl1]; omega),
      segRead_memcpyAt_after _ _ _ _ _ (by simp) (by omega)]

theorem C8_witness :
    (List.replicate PAGE_SIZE 3).length = PAGE_SIZE ∧
    (get_node_type_byte (initialize_leaf_node (List.replicate PAGE_SIZE 3))
        = NODE_LEAF ∧
      is_node_root_byte (initialize_leaf_node (List.replicate PAGE_SIZE 3))
        = false ∧
      leaf_load_num_cells (initialize_leaf_node (List.replicate PAGE_SIZE 3))
        = 0 ∧
      segRead (initialize_leaf_node (List.replicate PAGE_SIZE 3))
          LEAF_NODE_NEXT_LEAF_OFFSET LEAF_NODE_NEXT_LEAF_SIZE =
        segRead (List.replicate PAGE_SIZE 3) LEAF_NODE_NEXT_LEAF_OFFSET
          LEAF_NODE_NEXT_LEAF_SIZE ∧
      (initialize_leaf_node (List.replicate PAGE_SIZE 3)).length
        = (List.replicate PAGE_SIZE 3).length) :=
  ⟨List.length_replicate PAGE_SIZE 3,
    C8_initialize_leaf_node (List.replicate PAGE_SIZE 3)
      (List.length_replicate PAGE_SIZE 3)⟩

set_option maxRecDepth 8000 in
theorem C8_counterexample :
    (List.replicate 10 0 ++ [7, 7, 7, 7] ++ List.replicate 4082 0).length
      = PAGE_SIZE ∧
    leaf_load_next_leaf (initialize_leaf_node
      (List.replicate 10 0 ++ [7, 7, 7, 7] ++ List.replicate 4082 0)) ≠ 0 := by
  constructor
  · rw [List.length_append, List.length_append, List.length_replicate,
      List.length_replicate]
    rfl
  · decide

/-- C9: serialize_row writes exactly ROW_SIZE = 293 bytes at the fixed
offsets id = 0, username = 4, email = 37, preserves the destination
beyond ROW_SIZE, and deserialize_row of the result restores the row
field for field. -/
theorem C9_serialize_roundtrip (r : Row) (dest : List Nat)
    (hwf : r.WF) (hd : ROW_SIZE ≤ dest.length) :
    ROW_SIZE = 293 ∧ ID_OFFSET = 0 ∧ USERNAME_OFFSET = 4 ∧ EMAIL_OFFSET = 37 ∧
    USERNAME_SIZE = 33 ∧ EMAIL_SIZE = 256 ∧
    (serialize_row r dest).length = dest.length ∧
    segRead (serialize_row r dest) ID_OFFSET ID_SIZE = toLE4 r.id ∧
    segRead (serialize_row r dest) USERNAME_OFFSET USERNAME_SIZE = r.username ∧
    segRead (serialize_row r dest) EMAIL_OFFSET EMAIL_SIZE = r.email ∧
    (serialize_row r dest).drop ROW_SIZE = dest.drop ROW_SIZE ∧
    deserialize_row (serialize_row r dest) = r := by
  obtain ⟨hid, hu, he⟩ := hwf
  obtain ⟨h0, h1, h2, h3, h4⟩ := serialize_row_segs r dest hu he hd
  exact ⟨rfl, rfl, rfl, rfl, rfl, rfl, h0, h1, h2, h3, h4,
    deserialize_serialize r dest ⟨hid, hu, he⟩ hd⟩

set_option maxRecDepth 8000 in
theorem C9_witness :
    (mkRow 5).WF ∧ ROW_SIZE ≤ (List.replicate ROW_SIZE 0).length ∧
    deserialize_row (serialize_row (mkRow 5) (List.replicate ROW_SIZE 0))
      = mkRow 5 :=
  ⟨by decide, by simp,
    (C9_serialize_roundtrip (mkRow 5) (List.replicate ROW_SIZE 0) (by decide)
      (by simp)).2.2.2.2.2.2.2.2.2.2.2⟩

end TinySql
